/-
Verification development for the QnA support-query classification core.

The Python sources under src/core (preprocessor.py, rule_classifier.py,
llm_classifier.py, classifier.py, router.py, models.py) are shallowly
embedded below.  Text is modelled as List Char, Python floats as exact
rationals, and wall-clock measurements (time.time() differences) as
explicit rational parameters supplied by the environment.  The remote
LLM call is modelled by an environment function assigning to each
attempt number the outcome of that attempt.
-/
import Mathlib

set_option maxRecDepth 4000

namespace QnA

/-! ## Character classes

Python's regular-expression character classes used by preprocessor.py,
expressed on code points. -/

/-- Whitespace in the sense of Python's str-pattern [backslash-s] class and
str.isspace / str.strip: ASCII whitespace plus the Unicode whitespace
code points. -/
def isPySpace (c : Char) : Bool :=
  c.toNat = 32 || c.toNat = 9 || c.toNat = 10 || c.toNat = 13 ||
  c.toNat = 11 || c.toNat = 12 || (28 ≤ c.toNat && c.toNat ≤ 31) ||
  c.toNat = 133 || c.toNat = 160 || c.toNat = 5760 ||
  (8192 ≤ c.toNat && c.toNat ≤ 8202) || c.toNat = 8232 ||
  c.toNat = 8233 || c.toNat = 8239 || c.toNat = 8287 || c.toNat = 12288

/-- The class [a-zA-Z]. -/
def isAsciiLetterB (c : Char) : Bool :=
  (65 ≤ c.toNat && c.toNat ≤ 90) || (97 ≤ c.toNat && c.toNat ≤ 122)

/-- The class [0-9]. -/
def isAsciiDigitB (c : Char) : Bool :=
  48 ≤ c.toNat && c.toNat ≤ 57

/-- The currency symbols kept by `_remove_emojis`. -/
def isCurrency (c : Char) : Bool :=
  c = '$' || c = '€' || c = '£' || c = '¥'

/-- Terminal punctuation collapsed by `_normalize_punctuation` ([!?.]). -/
def isTermPunct (c : Char) : Bool :=
  c = '!' || c = '?' || c = '.'

/-- The keep-class of `_remove_special_characters`:
[a-zA-Z0-9 backslash-s .,!?;:$ hyphen]. -/
def keepChar (c : Char) : Bool :=
  isAsciiLetterB c || isAsciiDigitB c || isPySpace c ||
  c = '.' || c = ',' || c = '!' || c = '?' || c = ';' || c = ':' ||
  c = '$' || c = '-'

/-- ASCII lowercasing, modelling Python str.lower on the alphabet reachable
inside the preprocessing pipeline (after `_remove_special_characters` every
remaining character is ASCII or Unicode whitespace, on which str.lower
agrees with ASCII lowercasing).  Also used for the raw-text lowering in
`_determine_routing`, whose keyword tables are pure ASCII. -/
def pyLower (c : Char) : Char :=
  if 65 ≤ c.toNat && c.toNat ≤ 90 then Char.ofNat (c.toNat + 32) else c

/-! ## URL removal

Models `re.sub` with the pattern
http[s]?://(?:[a-zA-Z]|[0-9]|[$-_@.&+]|[!*(),-escapes]|(?:%hex hex))+
replacing each match by a single space.  The char-range [$-_@.&+] is the
code-point range 0x24..0x5F (which subsumes [0-9], [A-Z], %hh and the
extra chars except the escaped set), so the repeated unit is exactly the
class below, and the greedy + takes the maximal nonempty run. -/

/-- A character matched by the repeated unit of the URL pattern. -/
def isUrlChar (c : Char) : Bool :=
  (36 ≤ c.toNat && c.toNat ≤ 95) || (97 ≤ c.toNat && c.toNat ≤ 122) ||
  c = '!'

/-- Length of the URL-pattern match starting at the head of the list,
if any (leftmost-greedy semantics of re.sub). -/
def urlMatch : List Char → Option Nat
  | 'h' :: 't' :: 't' :: 'p' :: 's' :: ':' :: '/' :: '/' :: r =>
    let run := r.takeWhile isUrlChar
    if run.isEmpty then none else some (8 + run.length)
  | 'h' :: 't' :: 't' :: 'p' :: ':' :: '/' :: '/' :: r =>
    let run := r.takeWhile isUrlChar
    if run.isEmpty then none else some (7 + run.length)
  | _ => none

/-- Fuel-indexed scanner performing re.sub with a context-free matcher:
at each position, if the matcher fires, the matched chunk is replaced by
one space and scanning resumes after it. -/
def ssGo (f : List Char → Option Nat) : Nat → List Char → List Char
  | 0, l => l
  | _ + 1, [] => []
  | fuel + 1, c :: cs =>
    match f (c :: cs) with
    | some n => ' ' :: ssGo f fuel (cs.drop (n - 1))
    | none => c :: ssGo f fuel cs

/-- `_remove_urls`. -/
def removeUrls (l : List Char) : List Char := ssGo urlMatch l.length l

/-! ## Email removal

Models `re.sub` of
word-boundary [A-Za-z0-9._%+-]+ @ [A-Za-z0-9.-]+ dot [A-Za-z]{2,} word-boundary
with a single space, with Python's leftmost scan, greedy runs and
backtracking on the domain run. -/

def isLocalChar (c : Char) : Bool :=
  isAsciiLetterB c || isAsciiDigitB c ||
  c = '.' || c = '_' || c = '%' || c = '+' || c = '-'

def isDomainChar (c : Char) : Bool :=
  isAsciiLetterB c || isAsciiDigitB c || c = '.' || c = '-'

def isWordChar (c : Char) : Bool :=
  isAsciiLetterB c || isAsciiDigitB c || c = '_'

def isWordOpt : Option Char → Bool
  | none => false
  | some c => isWordChar c

/-- Match of dot [A-Za-z]{2,} word-boundary at a candidate split point:
the greedy letter run must have length at least two and be followed by a
non-word position. -/
def emailTldAt (rest2 : List Char) (n : Nat) : Option Nat :=
  match rest2.drop n with
  | '.' :: lAfter =>
    let tld := lAfter.takeWhile isAsciiLetterB
    if 2 ≤ tld.length && !isWordOpt (lAfter.drop tld.length).head? then
      some (n + 1 + tld.length)
    else none
  | _ => none

/-- Backtracking search over the domain-run split, longest first, as the
regex engine tries successively shorter [A-Za-z0-9.-]+ prefixes. -/
def emailDomSearch (rest2 : List Char) : Nat → Option Nat
  | 0 => none
  | n + 1 =>
    match emailTldAt rest2 (n + 1) with
    | some m => some m
    | none => emailDomSearch rest2 n

/-- Length of the email-pattern match starting at the head of `s`, given
the character preceding the position (for the leading word boundary). -/
def emailMatch (prev : Option Char) (s : List Char) : Option Nat :=
  let loc := s.takeWhile isLocalChar
  if loc.isEmpty then none
  else if isWordOpt prev == isWordChar (loc.headD 'a') then none
  else
    match s.drop loc.length with
    | '@' :: rest2 =>
      let dom := rest2.takeWhile isDomainChar
      match emailDomSearch rest2 dom.length with
      | some dl => some (loc.length + 1 + dl)
      | none => none
    | _ => none

/-- Fuel-indexed scanner for re.sub with a matcher that consults the
preceding original character (word boundaries are judged on the original
text, as re does). -/
def seGo : Nat → Option Char → List Char → List Char
  | 0, _, l => l
  | _ + 1, _, [] => []
  | fuel + 1, prev, c :: cs =>
    match emailMatch prev (c :: cs) with
    | some n => ' ' :: seGo fuel ((c :: cs).take n).getLast? (cs.drop (n - 1))
    | none => c :: seGo fuel (some c) cs

/-- `_remove_emails`. -/
def removeEmails (l : List Char) : List Char := seGo l.length none l

/-! ## Character-level cleanup steps -/

/-- `_remove_emojis`: keep ASCII and the currency symbols, replace any
other character by a space. -/
def removeEmojis (l : List Char) : List Char :=
  l.map fun c => if c.toNat < 128 || isCurrency c then c else ' '

/-- Fuel-indexed core of `_normalize_punctuation`: a maximal run of two or
more characters from [!?.] is replaced by its last character (re.sub of
([!?.]){2,} with the final captured repetition). -/
def npGo : Nat → List Char → List Char
  | 0, l => l
  | _ + 1, [] => []
  | fuel + 1, c :: cs =>
    if isTermPunct c && (cs.head?.any isTermPunct) then
      (cs.takeWhile isTermPunct).getLastD c :: npGo fuel (cs.dropWhile isTermPunct)
    else
      c :: npGo fuel cs

/-- `_normalize_punctuation`. -/
def normalizePunct (l : List Char) : List Char := npGo l.length l

/-- `_remove_special_characters`: replace every character outside the
keep-class by a space. -/
def removeSpecial (l : List Char) : List Char :=
  l.map fun c => if keepChar c then c else ' '

/-- Fuel-indexed core of `_normalize_whitespace`: every maximal whitespace
run becomes a single space. -/
def cwGo : Nat → List Char → List Char
  | 0, l => l
  | _ + 1, [] => []
  | fuel + 1, c :: cs =>
    if isPySpace c then ' ' :: cwGo fuel (cs.dropWhile isPySpace)
    else c :: cwGo fuel cs

/-- `_normalize_whitespace`. -/
def collapseWs (l : List Char) : List Char := cwGo l.length l

/-- Python str.strip(): drop whitespace from both ends. -/
def pyStrip (l : List Char) : List Char :=
  ((l.dropWhile isPySpace).reverse.dropWhile isPySpace).reverse

/-- `TextPreprocessor.preprocess` under the default PreprocessingConfig
(all of remove_urls, remove_emails, remove_emojis, normalize_punctuation,
remove_extra_punctuation, lowercase, normalize_whitespace and
strip_whitespace on; remove_stopwords off).  The initial guard returns ""
for empty or whitespace-only input; the min_length check only logs. -/
def preprocessL (text : List Char) : List Char :=
  if text.all isPySpace then []
  else
    pyStrip (collapseWs
      ((removeSpecial (normalizePunct (removeEmojis
        (removeEmails (removeUrls text))))).map pyLower))

/-! ## Keyword extraction -/

/-- Fuel-indexed whitespace splitting, as Python str.split() with no
arguments: maximal nonempty runs of non-whitespace. -/
def woGo : Nat → List Char → List (List Char)
  | 0, _ => []
  | _ + 1, [] => []
  | fuel + 1, c :: cs =>
    if isPySpace c then woGo fuel cs
    else
      (c :: cs.takeWhile (fun d => !isPySpace d)) ::
        woGo fuel (cs.dropWhile (fun d => !isPySpace d))

def wordsOf (l : List Char) : List (List Char) := woGo l.length l

/-- The strip set '.,!?;:-' used on each token by extract_keywords. -/
def isTokenPunct (c : Char) : Bool :=
  c = '.' || c = ',' || c = '!' || c = '?' || c = ';' || c = ':' || c = '-'

/-- Python str.strip with an explicit character set. -/
def stripTokenPunct (w : List Char) : List Char :=
  ((w.dropWhile isTokenPunct).reverse.dropWhile isTokenPunct).reverse

/-- `TextPreprocessor.extract_keywords`: preprocess, split on whitespace,
strip token punctuation, keep tokens longer than two characters. -/
def extractKeywords (text : List Char) : List (List Char) :=
  ((wordsOf (preprocessL text)).map stripTokenPunct).filter
    fun w => 2 < w.length

/-! ## Data model (models.py) -/

/-- The seven support categories of `SupportCategory`. -/
inductive SupportCategory where
  | billing | technical | account | product | feature | bug | general
deriving DecidableEq

/-- The enum value strings of `SupportCategory`. -/
def categoryName : SupportCategory → String
  | .billing => "Billing & Payments"
  | .technical => "Technical Issues"
  | .account => "Account Management"
  | .product => "Product Questions"
  | .feature => "Feature Requests"
  | .bug => "Bug Reports"
  | .general => "General Inquiry"

inductive ClassificationMethod where
  | ruleBased | llmFallback | hybrid
deriving DecidableEq

/-- Round-half-to-even on exact rationals, modelling Python's round(x, 2)
applied by the confidence field validator. -/
def round2 (q : ℚ) : ℚ :=
  let scaled := q * 100
  let f : ℤ := scaled.floor
  let r : ℚ := scaled - f
  let i : ℤ :=
    if r < 1/2 then f
    else if 1/2 < r then f + 1
    else if f % 2 = 0 then f else f + 1
  (i : ℚ) / 100

/-- `ClassificationResult` (models.py).  The wall-clock timestamp field is
omitted; response_time_ms is the measured duration supplied by the
environment.  The confidence validator round(v, 2) is applied at each
construction site below, mirroring Pydantic validation on construction. -/
structure ClassificationResult where
  category : SupportCategory
  confidence : ℚ
  method : ClassificationMethod
  reasoning : String
  response_time_ms : ℚ
  llm_tokens_used : Option Nat := none
  estimated_cost : Option ℚ := none
  is_multi_intent : Bool := false
  additional_categories : List SupportCategory := []
  category_scores : Option (List (String × ℚ)) := none
  routing_priority : String := "normal"
  requires_human_review : Bool := false
deriving DecidableEq

/-! ## Rule-based classifier (rule_classifier.py) -/

/-- One pattern group: a list of keyword-or-phrase terms and its weight. -/
abbrev PatternGroup := List (List Char) × ℚ

/-- CATEGORY_PATTERNS entries per category; `product` has no entry in the
source table. -/
def patternsFor : SupportCategory → List PatternGroup
  | .billing =>
    [ (["refund", "charged", "charge", "payment", "bill", "invoice"].map String.toList, 0.9),
      (["money", "paid", "cost", "price", "fee", "dollars"].map String.toList, 0.8),
      (["subscription", "cancel", "upgrade", "downgrade"].map String.toList, 0.85),
      (["credit card", "debit card", "payment method"].map String.toList, 0.9),
      (["money back", "refund", "charged twice", "double charged"].map String.toList, 0.95),
      (["overcharged", "unauthorized", "incorrect charge"].map String.toList, 0.95),
      (["receipt", "transaction", "purchase"].map String.toList, 0.75) ]
  | .technical =>
    [ (["error", "bug", "crash", "broken", "not working"].map String.toList, 0.9),
      (["loading", "slow", "timeout", "connection"].map String.toList, 0.8),
      (["feature", "function", "button", "click"].map String.toList, 0.75),
      (["browser", "app", "mobile", "desktop"].map String.toList, 0.7),
      (["update", "version", "install"].map String.toList, 0.75) ]
  | .account =>
    [ (["forgot password", "reset password", "forgot my password"].map String.toList, 0.95),
      (["password", "login", "log in", "sign in", "access"].map String.toList, 0.85),
      (["locked out", "cant access", "can't access", "cannot access"].map String.toList, 0.9),
      (["account", "profile", "settings", "preferences"].map String.toList, 0.85),
      (["email", "username", "change", "update"].map String.toList, 0.8),
      (["delete account", "close account", "deactivate"].map String.toList, 0.95),
      (["personal information", "details", "data"].map String.toList, 0.8),
      (["verify", "verification", "confirm"].map String.toList, 0.75),
      (["security", "privacy", "permissions"].map String.toList, 0.8) ]
  | .product => []
  | .feature =>
    [ (["add feature", "new feature", "feature request"].map String.toList, 0.95),
      (["can you add", "could you add", "please add"].map String.toList, 0.9),
      (["would like", "wish", "hope", "suggestion"].map String.toList, 0.85),
      (["export", "download", "import", "integrate"].map String.toList, 0.8),
      (["improve", "enhancement", "better", "easier"].map String.toList, 0.75),
      (["missing", "need", "want", "require"].map String.toList, 0.7) ]
  | .bug =>
    [ (["bug", "issue", "problem", "defect"].map String.toList, 0.9),
      (["unexpected", "incorrect", "wrong", "broken"].map String.toList, 0.85),
      (["should work", "supposed to", "expected"].map String.toList, 0.8),
      (["always fails", "consistently", "reproducible"].map String.toList, 0.85) ]
  | .general =>
    [ (["help", "support", "question", "how"].map String.toList, 0.5),
      (["what", "why", "when", "where"].map String.toList, 0.4),
      (["information", "about", "learn"].map String.toList, 0.45) ]

/-- Dict insertion order of CATEGORY_PATTERNS. -/
def catOrder : List SupportCategory :=
  [.billing, .technical, .account, .feature, .bug, .general]

def CATEGORY_PATTERNS : List (SupportCategory × List PatternGroup) :=
  catOrder.map fun c => (c, patternsFor c)

/-- Python substring test `pat in text`. -/
def containsSub (text pat : List Char) : Bool :=
  (List.range (text.length + 1)).any fun i => pat.isPrefixOf (text.drop i)

/-- Number of terms of one pattern group present in the keyword list or as
a substring of the preprocessed text. -/
def termMatches (kws : List (List Char)) (text : List Char)
    (pats : List (List Char)) : Nat :=
  (pats.filter fun pk => kws.contains pk || containsSub text pk).length

/-- Accumulation of `_calculate_category_scores` over the pattern groups of
one category: the weighted match-ratio total and the count of groups with
at least one match.  (Addition order differs from the Python loop but the
rational sum is the same.) -/
def groupFold (kws : List (List Char)) (text : List Char) :
    List PatternGroup → ℚ × Nat
  | [] => (0, 0)
  | g :: gs =>
    let rest := groupFold kws text gs
    let k := termMatches kws text g.1
    if 0 < k then (rest.1 + (k : ℚ) / (g.1.length : ℚ) * g.2, rest.2 + 1)
    else rest

/-- Per-category final score of `_calculate_category_scores`. -/
def categoryScore (kws : List (List Char)) (text : List Char)
    (groups : List PatternGroup) : ℚ :=
  let acc := groupFold kws text groups
  if 0 < acc.2 then
    min (acc.1 + min ((0.15 : ℚ) * ((acc.2 : ℚ) - 1)) 0.35) 1
  else 0

/-- `_calculate_category_scores`: the scores dict in insertion order. -/
def calcScores (text : List Char) (kws : List (List Char)) :
    List (SupportCategory × ℚ) :=
  CATEGORY_PATTERNS.map fun p => (p.1, categoryScore kws text p.2)

/-- `_get_best_category`: Python max over dict items by value (first
maximal item wins), with the low-signal override below 0.2. -/
def getBestCategory (scores : List (SupportCategory × ℚ)) :
    SupportCategory × ℚ :=
  match scores with
  | [] => (.general, 0.3)
  | x :: xs =>
    let best := xs.foldl (fun b y => if b.2 < y.2 then y else b) x
    if best.2 < 0.2 then (.general, 0.3) else best

/-- Stable insertion into a descending-by-key list: the new element comes
from earlier in the original order, so it is placed before equal keys. -/
def insertDesc (key : SupportCategory × ℚ → ℚ) (x : SupportCategory × ℚ) :
    List (SupportCategory × ℚ) → List (SupportCategory × ℚ)
  | [] => [x]
  | y :: ys => if key y ≤ key x then x :: y :: ys else y :: insertDesc key x ys

/-- Stable descending sort, extensionally equal to Python's stable
list.sort(key, reverse=True). -/
def sortByDesc (key : SupportCategory × ℚ → ℚ) :
    List (SupportCategory × ℚ) → List (SupportCategory × ℚ)
  | [] => []
  | x :: xs => insertDesc key x (sortByDesc key xs)

/-- `_detect_multi_intent`: categories other than the primary scoring at
least 0.5, sorted descending by score; the flag is their non-emptiness.
(The Python code sorts the category list by dict lookup; as the score
list has pairwise-distinct categories this equals sorting the pairs and
projecting.) -/
def multiDetect (scores : List (SupportCategory × ℚ))
    (primary : SupportCategory) : List SupportCategory × Bool :=
  let additional :=
    (scores.filter fun p => p.1 != primary && decide ((0.5 : ℚ) ≤ p.2))
  let cats := (sortByDesc (fun p => p.2) additional).map Prod.fst
  (cats, !cats.isEmpty)

/-- First-occurrence deduplication with an accumulator of seen terms,
modelling list(set(...)) up to CPython's unspecified set iteration order
(no claim depends on the order of the reasoning text). -/
def dedupGo (seen : List (List Char)) : List (List Char) → List (List Char)
  | [] => []
  | x :: xs =>
    if seen.contains x then dedupGo seen xs
    else x :: dedupGo (x :: seen) xs

/-- `_get_matched_patterns`: keyword hits (exact membership only) of the
winning category, deduplicated. -/
def getMatchedPatterns (category : SupportCategory)
    (kws : List (List Char)) : List (List Char) :=
  dedupGo [] ((patternsFor category).flatMap fun g =>
    g.1.filter fun pk => kws.contains pk)

/-- Emergency/critical keywords of `_determine_routing`. -/
def criticalKeywords : List (List Char) :=
  ["urgent", "emergency", "critical", "asap", "immediately",
   "can't access", "cannot access", "locked out", "fraud",
   "unauthorized", "hacked", "stolen", "security breach"].map String.toList

/-- High-priority keywords of `_determine_routing`. -/
def highKeywords : List (List Char) :=
  ["crash", "error", "down", "not working", "broken",
   "charged twice", "double charge", "refund", "money back",
   "forgot password", "reset password"].map String.toList

/-- `_determine_routing`: (routing_priority, requires_human_review) from
the category, confidence, multi-intent flag and the raw lowered query. -/
def determineRouting (category : SupportCategory) (confidence : ℚ)
    (isMulti : Bool) (queryText : List Char) : String × Bool :=
  let ql := queryText.map pyLower
  let hasCritical := criticalKeywords.any fun kw => containsSub ql kw
  let hasHigh := highKeywords.any fun kw => containsSub ql kw
  let priority :=
    if hasCritical then "critical"
    else if hasHigh || isMulti then "high"
    else if confidence < 0.5 then "high"
    else "normal"
  let requiresHuman :=
    isMulti || hasCritical || decide (confidence < 0.4) ||
      (category == SupportCategory.billing && hasHigh)
  (priority, requiresHuman)

/-- The score dict computed by one rule-classification run: preprocess the
query, extract its keywords, and score each category
(`_calculate_category_scores` applied to this run's inputs). -/
def ruleScores (q : List Char) : List (SupportCategory × ℚ) :=
  calcScores (preprocessL q) (extractKeywords q)

/-- The per-category score of one rule-classification run (the value the
score dict associates to category `c`). -/
def catScore (q : List Char) (c : SupportCategory) : ℚ :=
  categoryScore (extractKeywords q) (preprocessL q) (patternsFor c)

/-- Characters that can occur in a nonempty default-config preprocessing
output: lowercase ASCII letters, digits, the single space, and the kept
punctuation.  Used to state the output invariant behind idempotence. -/
def outChar (c : Char) : Bool :=
  (97 ≤ c.toNat && c.toNat ≤ 122) || (48 ≤ c.toNat && c.toNat ≤ 57) ||
  c = ' ' || c = '.' || c = ',' || c = '!' || c = '?' || c = ';' ||
  c = ':' || c = '$' || c = '-'

/-- `_get_best_category` applied to this run's scores. -/
def ruleBest (q : List Char) : SupportCategory × ℚ :=
  getBestCategory (ruleScores q)

/-- `_detect_multi_intent` applied to this run's scores and primary. -/
def ruleAdditional (q : List Char) : List SupportCategory × Bool :=
  multiDetect (ruleScores q) (ruleBest q).1

/-- `_determine_routing` applied to this run's outcome. -/
def ruleRouting (q : List Char) : String × Bool :=
  determineRouting (ruleBest q).1 (ruleBest q).2 (ruleAdditional q).2 q

/-- `_get_matched_patterns` applied to this run's winner and keywords. -/
def ruleMatched (q : List Char) : List (List Char) :=
  getMatchedPatterns (ruleBest q).1 (extractKeywords q)

/-- The reasoning string built by `RuleBasedClassifier.classify`. -/
def ruleReasoning (q : List Char) : String :=
  "Matched " ++ toString (ruleMatched q).length ++ " patterns: " ++
    String.intercalate ", " (((ruleMatched q).take 3).map String.mk) ++
    (if (ruleAdditional q).2 then
      " | Also detected: " ++
        String.intercalate ", " ((ruleAdditional q).1.map categoryName)
    else "")

/-- `RuleBasedClassifier.classify`, assembled from the per-method helpers
above exactly as the Python method chains its private methods.
`elapsedMs` is the wall-clock duration measured by the Python code. -/
def ruleClassify (queryText : List Char) (elapsedMs : ℚ) :
    ClassificationResult :=
  { category := (ruleBest queryText).1
    confidence := round2 (ruleBest queryText).2
    method := .ruleBased
    reasoning := ruleReasoning queryText
    response_time_ms := elapsedMs
    is_multi_intent := (ruleAdditional queryText).2
    additional_categories := (ruleAdditional queryText).1
    category_scores :=
      some ((ruleScores queryText).map fun p => (categoryName p.1, p.2))
    routing_priority := (ruleRouting queryText).1
    requires_human_review := (ruleRouting queryText).2 }

/-! ## LLM fallback classifier (llm_classifier.py) -/

/-- Fields decoded from a successfully parsed JSON response, after the
dict .get defaults have been applied, plus the token usage reported by
the response metadata. -/
structure ParsedFields where
  category_str : String
  confidence : ℚ
  reasoning : String
  sentiment : String
  urgency : String
  tokens : Nat
deriving DecidableEq

/-- SupportCategory(category_str) with ValueError replaced by General. -/
def categoryFromString (s : String) : SupportCategory :=
  if s = "Billing & Payments" then .billing
  else if s = "Technical Issues" then .technical
  else if s = "Account Management" then .account
  else if s = "Product Questions" then .product
  else if s = "Feature Requests" then .feature
  else if s = "Bug Reports" then .bug
  else .general

/-- Successful branch of `_parse_response`: category decoding with the
General substitution, confidence capped at 0.95, sentiment/urgency
appended to the reasoning when non-default, linear token cost. -/
def parseResult (p : ParsedFields) (rtMs : ℚ) : ClassificationResult :=
  let reasoning :=
    if p.sentiment != "neutral" || p.urgency != "normal" then
      p.reasoning ++ " [Sentiment: " ++ p.sentiment ++ ", Urgency: " ++
        p.urgency ++ "]"
    else p.reasoning
  { category := categoryFromString p.category_str
    confidence := round2 (min p.confidence 0.95)
    method := .llmFallback
    reasoning := reasoning
    response_time_ms := rtMs
    llm_tokens_used := some p.tokens
    estimated_cost := some ((p.tokens : ℚ) / 1000 * 0.0004) }

/-- `_create_fallback_result`. -/
def fallbackResult (errMsg : String) (rtMs : ℚ) : ClassificationResult :=
  { category := .general
    confidence := round2 0.3
    method := .llmFallback
    reasoning := "LLM classification failed: " ++ errMsg
    response_time_ms := rtMs }

/-- Outcome of one remote attempt, as distinguished by the except clauses
of `LLMClassifier.classify` and the parse branches of `_parse_response`:
a parsed success, a JSON decode failure, another exception while parsing,
a RateLimitError, an APIError or APITimeoutError, or any other
exception. -/
inductive AttemptOutcome where
  | ok (fields : ParsedFields)
  | badJson
  | parseError (msg : String)
  | rateLimit (msg : String)
  | apiOrTimeout (msg : String)
  | otherError (msg : String)

/-- The retry loop of `LLMClassifier.classify`, indexed by the number of
remaining loop iterations; `attempt` is reconstructed as
maxRetries - remaining.  The second component is the list of sleep
durations (seconds) executed between attempts: 2 ^ attempt after a rate
limit, a constant 1 after an APIError/APITimeoutError.  `rt` is the
wall-clock duration placed in the produced result. -/
def llmLoop (outs : Nat → AttemptOutcome) (rt : ℚ) (maxRetries : Nat) :
    Nat → ClassificationResult × List ℚ
  | 0 => (fallbackResult "Max retries exceeded" rt, [])
  | remaining + 1 =>
    let attempt := maxRetries - remaining
    match outs attempt with
    | .ok p => (parseResult p rt, [])
    | .badJson => (fallbackResult "JSON parse error" rt, [])
    | .parseError m => (fallbackResult m rt, [])
    | .otherError m => (fallbackResult m rt, [])
    | .rateLimit m =>
      if 0 < remaining then
        let r := llmLoop outs rt maxRetries remaining
        (r.1, ((2 : ℚ) ^ attempt) :: r.2)
      else (fallbackResult m rt, [])
    | .apiOrTimeout m =>
      if 0 < remaining then
        let r := llmLoop outs rt maxRetries remaining
        (r.1, (1 : ℚ) :: r.2)
      else (fallbackResult m rt, [])

/-- `LLMClassifier.classify` with its outcome environment: the produced
result and the sleep schedule. -/
def llmClassify (outs : Nat → AttemptOutcome) (maxRetries : Nat) (rt : ℚ) :
    ClassificationResult × List ℚ :=
  llmLoop outs rt maxRetries maxRetries

/-! ## Hybrid orchestrator (classifier.py) -/

/-- `HybridClassifier.classify`.  The Boolean records whether the LLM
adapter was invoked (Step 3 reached).  `ruleMs` and `llmRt` are the
stage-local wall-clock durations, `totalMs` the total elapsed time since
Step 1 began. -/
def hybridClassify (threshold : ℚ) (queryText : List Char) (ruleMs : ℚ)
    (outs : Nat → AttemptOutcome) (llmRt : ℚ) (totalMs : ℚ) :
    ClassificationResult × Bool :=
  let ruleResult := ruleClassify queryText ruleMs
  if threshold ≤ ruleResult.confidence then (ruleResult, false)
  else
    let llmResult := (llmClassify outs 3 llmRt).1
    if ruleResult.confidence < llmResult.confidence then
      ({ llmResult with response_time_ms := totalMs }, true)
    else (ruleResult, true)

/-! ## Router (router.py) -/

inductive RoutingDestination where
  | autoResponse | tier1Support | tier2Support | specialistBilling
  | specialistTechnical | escalationTeam | multiIntentTriage
deriving DecidableEq

inductive RoutingAction where
  | singleTicket | splitTickets | escalateImmediately
  | queueNormal | queuePriority
deriving DecidableEq

structure RoutingDecision where
  destination : RoutingDestination
  action : RoutingAction
  priority : String
  estimated_wait_time : String
  reasoning : String
  requires_split : Bool := false
  split_categories : List SupportCategory := []
  special_instructions : Option String := none
deriving DecidableEq

/-- Python f-string percent formatting {x:.0%} (round-half-even). -/
def formatPercent (q : ℚ) : String :=
  let scaled := q * 100
  let f : ℤ := scaled.floor
  let r : ℚ := scaled - f
  let i : ℤ :=
    if r < 1/2 then f
    else if 1/2 < r then f + 1
    else if f % 2 = 0 then f else f + 1
  toString i ++ "%"

/-- `_route_multi_intent`.  In the two-intent branch the Python code reads
additional_categories[0], which the branch guard guarantees exists; the
head? default is never used there. -/
def routeMultiIntent (r : ClassificationResult) : RoutingDecision :=
  let intentCount := 1 + r.additional_categories.length
  if intentCount == 2 && decide ((0.7 : ℚ) ≤ r.confidence) then
    { destination := .tier2Support
      action := .singleTicket
      priority := r.routing_priority
      estimated_wait_time := "5-15 minutes"
      reasoning :=
        "Multi-intent query (" ++ categoryName r.category ++ " + " ++
          ((r.additional_categories.head?.map categoryName).getD "") ++
          "). Routing to senior agent for comprehensive handling."
      requires_split := false
      special_instructions := some
        ("Query contains multiple issues: " ++ categoryName r.category ++
          " and " ++
          String.intercalate ", " (r.additional_categories.map categoryName) ++
          ". Address all concerns in response.") }
  else
    { destination := .multiIntentTriage
      action := .splitTickets
      priority := "high"
      estimated_wait_time := "Immediate triage"
      reasoning :=
        "Complex multi-intent query with " ++ toString intentCount ++
          " distinct issues. Recommend splitting into separate tickets for specialized handling."
      requires_split := true
      split_categories := r.category :: r.additional_categories
      special_instructions := some
        ("Split this query into separate tickets:\n" ++
          String.intercalate "\n"
            ((r.category :: r.additional_categories).map
              fun c => "• " ++ categoryName c) ++
          "\n\nEnsure all tickets are linked for context.") }

/-- `_route_critical`. -/
def routeCritical (r : ClassificationResult) : RoutingDecision :=
  { destination := .escalationTeam
    action := .escalateImmediately
    priority := "critical"
    estimated_wait_time := "Immediate"
    reasoning :=
      "Critical issue detected in " ++ categoryName r.category ++
        ". Immediate escalation required."
    special_instructions :=
      some "Alert on-call manager. Immediate response required." }

/-- `_route_low_confidence`. -/
def routeLowConfidence (r : ClassificationResult) : RoutingDecision :=
  { destination := .tier1Support
    action := .queueNormal
    priority := r.routing_priority
    estimated_wait_time := "15-30 minutes"
    reasoning :=
      "Low confidence classification (" ++ formatPercent r.confidence ++
        "). Human agent will assess and recategorize if needed."
    special_instructions := some
      ("AI classified as " ++ categoryName r.category ++
        " with low confidence. Please verify category and recategorize if needed.") }

/-- The static routing_map of `_route_by_category`, which covers all seven
categories (the Tier-1 default of dict.get is unreachable). -/
def routingMapEntry : SupportCategory →
    RoutingDestination × String × String
  | .billing => (.specialistBilling, "10-20 minutes", "Billing specialist for payment issues")
  | .technical => (.specialistTechnical, "15-25 minutes", "Technical specialist for troubleshooting")
  | .account => (.tier1Support, "5-10 minutes", "Tier 1 support for account management")
  | .feature => (.tier2Support, "1-2 hours", "Product team for feature request evaluation")
  | .bug => (.specialistTechnical, "20-30 minutes", "Technical team for bug investigation")
  | .product => (.tier1Support, "5-15 minutes", "General support for product questions")
  | .general => (.autoResponse, "Immediate", "Automated FAQ response system")

/-- `_route_by_category`. -/
def routeByCategory (r : ClassificationResult) : RoutingDecision :=
  let entry := routingMapEntry r.category
  { destination := entry.1
    action :=
      if r.routing_priority = "critical" || r.routing_priority = "high" then
        RoutingAction.queuePriority
      else RoutingAction.queueNormal
    priority := r.routing_priority
    estimated_wait_time := entry.2.1
    reasoning := entry.2.2 ++ ". Confidence: " ++ formatPercent r.confidence }

/-- `SmartRouter.route`: the four mutually exclusive branches in fixed
priority order. -/
def route (r : ClassificationResult) : RoutingDecision :=
  if r.is_multi_intent then routeMultiIntent r
  else if r.routing_priority = "critical" then routeCritical r
  else if r.confidence < 0.5 then routeLowConfidence r
  else routeByCategory r

/-! ## Spec-side definitions and abbreviations used in claim statements -/

/-- Transcription of the spec's scoring sentence (section 4.2), for
comparison with `categoryScore`: running_total sums match_ratio times
weight over the groups, matched_group_count counts groups with at least
one match, and the final score is min(running_total + boost, 1) with
boost = min(0.15 (matched_group_count - 1), 0.35), or exactly 0 with no
matching group. -/
def specCategoryScore (kws : List (List Char)) (text : List Char)
    (groups : List PatternGroup) : ℚ :=
  let matchedGroupCount :=
    (groups.filter fun g => decide (0 < termMatches kws text g.1)).length
  let runningTotal :=
    (groups.map fun g =>
      (termMatches kws text g.1 : ℚ) / (g.1.length : ℚ) * g.2).sum
  if matchedGroupCount = 0 then 0
  else
    min (runningTotal +
      min ((0.15 : ℚ) * ((matchedGroupCount : ℚ) - 1)) 0.35) 1

end QnA

/-! # Helper lemmas -/

namespace QnA

/-! ## Projection lemmas for `ruleClassify` -/

lemma ruleClassify_category (q : List Char) (t : ℚ) :
    (ruleClassify q t).category = (ruleBest q).1 := by simp only [ruleClassify]

lemma ruleClassify_confidence (q : List Char) (t : ℚ) :
    (ruleClassify q t).confidence = round2 (ruleBest q).2 := by
  simp only [ruleClassify]

lemma ruleClassify_method (q : List Char) (t : ℚ) :
    (ruleClassify q t).method = ClassificationMethod.ruleBased := by
  simp only [ruleClassify]

lemma ruleClassify_is_multi_intent (q : List Char) (t : ℚ) :
    (ruleClassify q t).is_multi_intent = (ruleAdditional q).2 := by
  simp only [ruleClassify]

lemma ruleClassify_additional (q : List Char) (t : ℚ) :
    (ruleClassify q t).additional_categories = (ruleAdditional q).1 := by
  simp only [ruleClassify]

lemma ruleClassify_priority (q : List Char) (t : ℚ) :
    (ruleClassify q t).routing_priority = (ruleRouting q).1 := by
  simp only [ruleClassify]

lemma ruleBest_eq (q : List Char) :
    ruleBest q = getBestCategory (ruleScores q) := rfl

lemma ruleAdditional_eq (q : List Char) :
    ruleAdditional q = multiDetect (ruleScores q) (ruleBest q).1 := rfl

lemma ruleRouting_eq (q : List Char) :
    ruleRouting q =
      determineRouting (ruleBest q).1 (ruleBest q).2 (ruleAdditional q).2 q := rfl

/-! ## Scoring lemmas (C3, C4) -/

lemma groupFold_snd (kws : List (List Char)) (text : List Char)
    (gs : List PatternGroup) :
    (groupFold kws text gs).2 =
      (gs.filter fun g => decide (0 < termMatches kws text g.1)).length := by
  induction gs with
  | nil => rfl
  | cons g gs ih =>
    by_cases h : 0 < termMatches kws text g.1 <;>
      simp [groupFold, List.filter_cons, h, ih]

lemma groupFold_fst (kws : List (List Char)) (text : List Char)
    (gs : List PatternGroup) :
    (groupFold kws text gs).1 =
      (gs.map fun g =>
        (termMatches kws text g.1 : ℚ) / (g.1.length : ℚ) * g.2).sum := by
  induction gs with
  | nil => rfl
  | cons g gs ih =>
    by_cases h : 0 < termMatches kws text g.1
    · simp [groupFold, h, ih]; ring
    · have h0 : termMatches kws text g.1 = 0 := by omega
      simp [groupFold, h, ih, h0]

lemma foldl_best_spec (x : SupportCategory × ℚ)
    (xs : List (SupportCategory × ℚ)) :
    (xs.foldl (fun b y => if b.2 < y.2 then y else b) x) ∈ x :: xs ∧
      ∀ p ∈ x :: xs,
        p.2 ≤ (xs.foldl (fun b y => if b.2 < y.2 then y else b) x).2 := by
  induction xs generalizing x with
  | nil => simp
  | cons y ys ih =>
    simp only [List.foldl_cons]
    obtain ⟨hmem, hle⟩ := ih (if x.2 < y.2 then y else x)
    have hstep : x.2 ≤ (if x.2 < y.2 then y else x).2 ∧
        y.2 ≤ (if x.2 < y.2 then y else x).2 := by
      split
      · exact ⟨le_of_lt (by assumption), le_refl _⟩
      · exact ⟨le_refl _, le_of_not_lt (by assumption)⟩
    constructor
    · rcases List.mem_cons.mp hmem with h | h
      · rw [h]; split <;> simp
      · simp [h]
    · intro p hp
      have hhead := hle _ (List.mem_cons_self _ _)
      rcases List.mem_cons.mp hp with rfl | hp'
      · exact hstep.1.trans hhead
      · rcases List.mem_cons.mp hp' with rfl | hp''
        · exact hstep.2.trans hhead
        · exact hle p (List.mem_cons_of_mem _ hp'')

lemma mem_calcScores {text : List Char} {kws : List (List Char)}
    {p : SupportCategory × ℚ} (h : p ∈ calcScores text kws) :
    p.2 = categoryScore kws text (patternsFor p.1) := by
  obtain ⟨pp, hpp, rfl⟩ := List.mem_map.mp h
  obtain ⟨c, _, rfl⟩ := List.mem_map.mp hpp
  rfl

/-! ## Sorting lemmas (C5) -/

lemma mem_insertDesc {key : SupportCategory × ℚ → ℚ}
    {x y : SupportCategory × ℚ} {l : List (SupportCategory × ℚ)} :
    y ∈ insertDesc key x l ↔ y = x ∨ y ∈ l := by
  induction l with
  | nil => simp [insertDesc]
  | cons z zs ih =>
    simp only [insertDesc]
    split
    · simp [List.mem_cons]
    · simp only [List.mem_cons, ih]
      tauto

lemma pairwise_insertDesc (key : SupportCategory × ℚ → ℚ)
    (x : SupportCategory × ℚ) (l : List (SupportCategory × ℚ))
    (h : l.Pairwise fun a b => key b ≤ key a) :
    (insertDesc key x l).Pairwise fun a b => key b ≤ key a := by
  induction l with
  | nil => simp [insertDesc]
  | cons z zs ih =>
    rcases List.pairwise_cons.mp h with ⟨hz, hzs⟩
    simp only [insertDesc]
    split
    · rename_i hkey
      refine List.pairwise_cons.mpr ⟨?_, h⟩
      intro b hb
      rcases List.mem_cons.mp hb with rfl | hb'
      · exact hkey
      · exact (hz b hb').trans hkey
    · rename_i hkey
      refine List.pairwise_cons.mpr ⟨?_, ih hzs⟩
      intro b hb
      rcases mem_insertDesc.mp hb with rfl | hb'
      · exact le_of_not_le hkey
      · exact hz b hb'

lemma pairwise_sortByDesc (key : SupportCategory × ℚ → ℚ)
    (l : List (SupportCategory × ℚ)) :
    (sortByDesc key l).Pairwise fun a b => key b ≤ key a := by
  induction l with
  | nil => simp [sortByDesc]
  | cons x xs ih => exact pairwise_insertDesc key x _ ih

lemma mem_sortByDesc {key : SupportCategory × ℚ → ℚ}
    {y : SupportCategory × ℚ} {l : List (SupportCategory × ℚ)} :
    y ∈ sortByDesc key l ↔ y ∈ l := by
  induction l with
  | nil => simp [sortByDesc]
  | cons x xs ih => simp [sortByDesc, mem_insertDesc, ih]

/-! ## Retry-loop lemmas (C7, C9) -/

lemma llmLoop_const_rateLimit (msg : String) (rt : ℚ) (m : Nat) :
    ∀ j, j + 1 ≤ m →
      llmLoop (fun _ => .rateLimit msg) rt m (j + 1) =
        (fallbackResult msg rt,
          (List.range j).map fun i => (2 : ℚ) ^ (m - j + i)) := by
  intro j
  induction j with
  | zero => intro _; simp [llmLoop]
  | succ j ih =>
    intro hj
    rw [llmLoop]
    simp only [Nat.succ_sub_succ]
    rw [if_pos (Nat.succ_pos j), ih (by omega)]
    refine Prod.ext rfl ?_
    simp only [List.range_succ_eq_map, List.map_cons, List.map_map]
    refine List.cons_eq_cons.mpr ⟨by simp, ?_⟩
    refine List.map_congr_left fun i _ => ?_
    have : m - (j + 1) + (i + 1) = m - j + i := by omega
    simp [Function.comp, this]

lemma llmLoop_const_apiOrTimeout (msg : String) (rt : ℚ) (m : Nat) :
    ∀ j, j + 1 ≤ m →
      llmLoop (fun _ => .apiOrTimeout msg) rt m (j + 1) =
        (fallbackResult msg rt, List.replicate j 1) := by
  intro j
  induction j with
  | zero => intro _; simp [llmLoop]
  | succ j ih =>
    intro hj
    rw [llmLoop]
    simp only [Nat.succ_sub_succ]
    rw [if_pos (Nat.succ_pos j), ih (by omega)]
    simp [List.replicate_succ]

lemma llmLoop_priority (outs : Nat → AttemptOutcome) (rt : ℚ) (mr : Nat) :
    ∀ j, ((llmLoop outs rt mr j).1).routing_priority = "normal" := by
  intro j
  induction j with
  | zero => rfl
  | succ j ih =>
    rw [llmLoop]
    cases outs (mr - j) with
    | ok p => rfl
    | badJson => rfl
    | parseError m => rfl
    | otherError m => rfl
    | rateLimit m =>
      simp only []
      split
      · exact ih
      · rfl
    | apiOrTimeout m =>
      simp only []
      split
      · exact ih
      · rfl

lemma determineRouting_priority (category : SupportCategory) (confidence : ℚ)
    (isMulti : Bool) (queryText : List Char) :
    (determineRouting category confidence isMulti queryText).1 = "critical" ∨
    (determineRouting category confidence isMulti queryText).1 = "high" ∨
    (determineRouting category confidence isMulti queryText).1 = "normal" := by
  simp only [determineRouting]
  by_cases h1 :
      (criticalKeywords.any fun kw => containsSub (queryText.map pyLower) kw) = true
  · simp [h1]
  · by_cases h2 :
        ((highKeywords.any fun kw => containsSub (queryText.map pyLower) kw) || isMulti) = true
    · simp [h1, h2]
    · by_cases h3 : confidence < 0.5
      · simp [h1, h2, h3]
      · simp [h1, h2, h3]

end QnA

/-! # Claims -/

namespace QnA

/-- Unfolding equation of `getBestCategory` on a nonempty list. -/
lemma getBestCategory_cons (x : SupportCategory × ℚ)
    (xs : List (SupportCategory × ℚ)) :
    getBestCategory (x :: xs) =
      if (xs.foldl (fun b y => if b.2 < y.2 then y else b) x).2 < 0.2 then
        (SupportCategory.general, 0.3)
      else xs.foldl (fun b y => if b.2 < y.2 then y else b) x := rfl

/-- Spec-side helper lemma for C4: behaviour of `_get_best_category` on a
nonempty score list. -/
lemma getBestCategory_spec (s : List (SupportCategory × ℚ)) (hs : s ≠ []) :
    if ∀ p ∈ s, p.2 < 0.2 then
      getBestCategory s = (SupportCategory.general, 0.3)
    else
      getBestCategory s ∈ s ∧ ∀ p ∈ s, p.2 ≤ (getBestCategory s).2 := by
  match s with
  | [] => exact absurd rfl hs
  | x :: xs =>
    obtain ⟨hmem, hle⟩ := foldl_best_spec x xs
    rw [getBestCategory_cons]
    split
    · rename_i hall
      rw [if_pos (hall _ hmem)]
    · rename_i hall
      push_neg at hall
      obtain ⟨p, hp, hp2⟩ := hall
      rw [if_neg (not_lt.mpr (hp2.trans (hle p hp)))]
      exact ⟨hmem, hle⟩

/-- C1: if the rule-based confidence reaches the configured threshold, the
hybrid orchestrator returns exactly the rule result, unchanged, whose
method is rule-based, and the LLM adapter is not invoked (the Boolean
component of `hybridClassify` records invocation). -/
theorem c1_rule_confident_short_circuit (q : List Char)
    (ruleMs θ llmRt totalMs : ℚ) (outs : Nat → AttemptOutcome)
    (h : θ ≤ (ruleClassify q ruleMs).confidence) :
    hybridClassify θ q ruleMs outs llmRt totalMs = (ruleClassify q ruleMs, false) ∧
      (ruleClassify q ruleMs).method = ClassificationMethod.ruleBased := by
  refine ⟨?_, rfl⟩
  simp only [hybridClassify]
  rw [if_pos h]

/-- Witness for C1 at the concrete query "refund" with threshold 0.5. -/
theorem c1_witness :
    hybridClassify 0.5 ("refund".toList) 0 (fun _ => AttemptOutcome.badJson) 0 7 =
      (ruleClassify ("refund".toList) 0, false) ∧
    (ruleClassify ("refund".toList) 0).method = ClassificationMethod.ruleBased :=
  c1_rule_confident_short_circuit "refund".toList 0 0.5 0 7
    (fun _ => AttemptOutcome.badJson) (by with_unfolding_all decide)

/-- C2: below the threshold, the orchestrator returns the LLM result if and
only if the LLM confidence strictly exceeds the rule confidence (ties and
lower go to the rule result unchanged); when the LLM result wins, its
response_time_ms is overwritten with the total elapsed time and every
other field is unchanged. -/
theorem c2_arbitration_below_threshold (q : List Char)
    (ruleMs θ llmRt totalMs : ℚ) (outs : Nat → AttemptOutcome)
    (h : (ruleClassify q ruleMs).confidence < θ) :
    hybridClassify θ q ruleMs outs llmRt totalMs =
      (if (ruleClassify q ruleMs).confidence <
          ((llmClassify outs 3 llmRt).1).confidence then
        ({ (llmClassify outs 3 llmRt).1 with response_time_ms := totalMs }, true)
      else (ruleClassify q ruleMs, true)) := by
  simp only [hybridClassify]
  rw [if_neg (not_le.mpr h)]

/-- Concrete LLM environment used by the C2 witness: every attempt parses
as Technical Issues with confidence 0.8. -/
def c2Outs : Nat → AttemptOutcome :=
  fun _ => AttemptOutcome.ok ⟨"Technical Issues", 0.8, "model answer", "neutral", "normal", 50⟩

/-- Witness for C2 at the concrete query "hello there" (rule confidence
0.3) and an LLM result of confidence 0.8. -/
theorem c2_witness :
    hybridClassify 0.7 ("hello there".toList) 0 c2Outs 0 9 =
      (if (ruleClassify ("hello there".toList) 0).confidence <
          ((llmClassify c2Outs 3 0).1).confidence then
        ({ (llmClassify c2Outs 3 0).1 with response_time_ms := 9 }, true)
      else (ruleClassify ("hello there".toList) 0, true)) :=
  c2_arbitration_below_threshold "hello there".toList 0 0.7 0 9 c2Outs
    (by with_unfolding_all decide)

/-- C3: for every preprocessed text, keyword list and category, the rule
engine's category score equals the spec formula: the sum over groups of
match_ratio times weight, plus boost min(0.15 (matched_group_count - 1),
0.35), capped at 1, and exactly 0 when no group matches. -/
theorem c3_category_score_formula (kws : List (List Char)) (text : List Char)
    (c : SupportCategory) :
    categoryScore kws text (patternsFor c) =
      specCategoryScore kws text (patternsFor c) := by
  simp only [categoryScore, specCategoryScore]
  rw [groupFold_fst, groupFold_snd]
  by_cases h :
      ((patternsFor c).filter fun g => decide (0 < termMatches kws text g.1)).length = 0
  · simp [h]
  · simp [h, Nat.pos_of_ne_zero h]

/-- C4: the rule engine selects the (first) category attaining the maximum
score as primary with that score as confidence; when every score is below
0.2 it returns General Inquiry at fixed confidence 0.3, so classification
always produces a result. -/
theorem c4_best_category_selection (q : List Char) (t : ℚ) :
    (ruleClassify q t).category = (getBestCategory (ruleScores q)).1 ∧
    (ruleClassify q t).confidence = round2 (getBestCategory (ruleScores q)).2 ∧
    (if ∀ p ∈ ruleScores q, p.2 < 0.2 then
      getBestCategory (ruleScores q) = (SupportCategory.general, 0.3)
    else
      getBestCategory (ruleScores q) ∈ ruleScores q ∧
        ∀ p ∈ ruleScores q, p.2 ≤ (getBestCategory (ruleScores q)).2) := by
  refine ⟨?_, ?_, ?_⟩
  · rw [ruleClassify_category, ruleBest_eq]
  · rw [ruleClassify_confidence, ruleBest_eq]
  · apply getBestCategory_spec
    simp [ruleScores, calcScores, CATEGORY_PATTERNS, catOrder]

/-- C5: in every rule-engine result, is_multi_intent holds iff
additional_categories is nonempty, the primary category never appears in
additional_categories, and additional_categories is sorted in descending
order of that run's category scores. -/
theorem c5_multi_intent_invariants (q : List Char) (t : ℚ) :
    ((ruleClassify q t).is_multi_intent = true ↔
      (ruleClassify q t).additional_categories ≠ []) ∧
    (ruleClassify q t).category ∉ (ruleClassify q t).additional_categories ∧
    (ruleClassify q t).additional_categories.Pairwise
      (fun a b => catScore q b ≤ catScore q a) := by
  refine ⟨?_, ?_, ?_⟩
  · rw [ruleClassify_is_multi_intent, ruleClassify_additional, ruleAdditional_eq]
    simp [multiDetect, List.isEmpty_iff]
  · rw [ruleClassify_category, ruleClassify_additional, ruleAdditional_eq]
    intro hmem
    simp only [multiDetect] at hmem
    obtain ⟨p, hp, hfst⟩ := List.mem_map.mp hmem
    have hp' := mem_sortByDesc.mp hp
    have := (List.mem_filter.mp hp').2
    rw [Bool.and_eq_true, bne_iff_ne] at this
    exact this.1 hfst
  · rw [ruleClassify_additional, ruleAdditional_eq]
    simp only [multiDetect]
    rw [List.pairwise_map]
    refine List.Pairwise.imp_of_mem ?_ (pairwise_sortByDesc _ _)
    intro a b ha hb hle
    have ha' := mem_calcScores (List.mem_filter.mp (mem_sortByDesc.mp ha)).1
    have hb' := mem_calcScores (List.mem_filter.mp (mem_sortByDesc.mp hb)).1
    show catScore q b.1 ≤ catScore q a.1
    rw [catScore, catScore, ← ha', ← hb']
    exact hle

end QnA

namespace QnA

/-- C6: for every multi-intent classification result, the router sends
exactly-two-intent results with confidence at least 0.7 to Tier-2 support
as a single ticket with no split, and every other multi-intent result to
the multi-intent triage queue with action split-tickets, priority high,
requires_split set, and split_categories listing the primary category
followed by each additional category. -/
theorem c6_multi_intent_routing (r : ClassificationResult)
    (h : r.is_multi_intent = true) :
    if 1 + r.additional_categories.length = 2 ∧ (0.7 : ℚ) ≤ r.confidence then
      (route r).destination = RoutingDestination.tier2Support ∧
      (route r).action = RoutingAction.singleTicket ∧
      (route r).requires_split = false
    else
      (route r).destination = RoutingDestination.multiIntentTriage ∧
      (route r).action = RoutingAction.splitTickets ∧
      (route r).priority = "high" ∧
      (route r).requires_split = true ∧
      (route r).split_categories = r.category :: r.additional_categories := by
  have hroute : route r = routeMultiIntent r := by simp [route, h]
  by_cases hc : 1 + r.additional_categories.length = 2 ∧ (0.7 : ℚ) ≤ r.confidence
  · rw [if_pos hc, hroute]
    simp [routeMultiIntent, hc.1, hc.2]
  · rw [if_neg hc, hroute]
    by_cases h1 : 1 + r.additional_categories.length = 2
    · have h2 : ¬ (0.7 : ℚ) ≤ r.confidence := fun hb => hc ⟨h1, hb⟩
      simp [routeMultiIntent, h1, h2]
    · simp [routeMultiIntent, h1]

/-- Concrete multi-intent result used by the C6 witness. -/
def c6Sample : ClassificationResult :=
  { category := .billing
    confidence := 0.8
    method := .ruleBased
    reasoning := "sample"
    response_time_ms := 1
    is_multi_intent := true
    additional_categories := [.technical] }

/-- Witness for C6 at a concrete two-intent result with confidence 0.8. -/
theorem c6_witness :
    if 1 + c6Sample.additional_categories.length = 2 ∧
        (0.7 : ℚ) ≤ c6Sample.confidence then
      (route c6Sample).destination = RoutingDestination.tier2Support ∧
      (route c6Sample).action = RoutingAction.singleTicket ∧
      (route c6Sample).requires_split = false
    else
      (route c6Sample).destination = RoutingDestination.multiIntentTriage ∧
      (route c6Sample).action = RoutingAction.splitTickets ∧
      (route c6Sample).priority = "high" ∧
      (route c6Sample).requires_split = true ∧
      (route c6Sample).split_categories =
        c6Sample.category :: c6Sample.additional_categories :=
  c6_multi_intent_routing c6Sample rfl

/-- C7 counterexample: with a timeout failure on every attempt and the
default retry ceiling 3, the adapter sleeps a constant 1 second between
attempts, not the claimed 2 ^ attempt seconds (which would give waits
2 and 4). -/
theorem c7_counterexample :
    (llmClassify (fun _ => AttemptOutcome.apiOrTimeout "Request timed out") 3 0).2 =
      [1, 1] ∧
    (llmClassify (fun _ => AttemptOutcome.apiOrTimeout "Request timed out") 3 0).2 ≠
      [(2 : ℚ) ^ 1, (2 : ℚ) ^ 2] := by
  constructor
  · with_unfolding_all decide
  · with_unfolding_all decide

/-- C7 (amended): on persistent rate-limit failures the adapter retries up
to the attempt ceiling sleeping 2 ^ attempt seconds between attempt
`attempt` and the next; on persistent timeout or API errors it retries up
to the same ceiling sleeping a constant 1 second between attempts; in
both cases, once the retry budget is exhausted it returns the fixed
fallback result (General Inquiry, confidence 0.3, method llm-fallback)
rather than raising. -/
theorem c7_retry_backoff_amended (m : Nat) (msg : String) (rt : ℚ)
    (h : 1 ≤ m) :
    llmClassify (fun _ => AttemptOutcome.rateLimit msg) m rt =
      (fallbackResult msg rt, (List.range (m - 1)).map fun i => (2 : ℚ) ^ (1 + i)) ∧
    llmClassify (fun _ => AttemptOutcome.apiOrTimeout msg) m rt =
      (fallbackResult msg rt, List.replicate (m - 1) 1) ∧
    (fallbackResult msg rt).category = SupportCategory.general ∧
    (fallbackResult msg rt).confidence = 0.3 ∧
    (fallbackResult msg rt).method = ClassificationMethod.llmFallback := by
  obtain ⟨k, rfl⟩ : ∃ k, m = k + 1 := ⟨m - 1, by omega⟩
  refine ⟨?_, ?_, rfl, ?_, rfl⟩
  · unfold llmClassify
    rw [llmLoop_const_rateLimit msg rt (k + 1) k (le_refl _)]
    have hsub : k + 1 - k = 1 := by omega
    simp [hsub]
  · unfold llmClassify
    rw [llmLoop_const_apiOrTimeout msg rt (k + 1) k (le_refl _)]
    simp
  · show round2 0.3 = 0.3
    with_unfolding_all decide

/-- Witness for C7 (amended) at the retry ceiling 3: waits 2 and 4 for
rate limits, waits 1 and 1 for timeouts, then the fixed fallback. -/
theorem c7_witness :
    llmClassify (fun _ => AttemptOutcome.rateLimit "rate limited") 3 0 =
      (fallbackResult "rate limited" 0,
        (List.range (3 - 1)).map fun i => (2 : ℚ) ^ (1 + i)) ∧
    llmClassify (fun _ => AttemptOutcome.apiOrTimeout "rate limited") 3 0 =
      (fallbackResult "rate limited" 0, List.replicate (3 - 1) 1) ∧
    (fallbackResult "rate limited" 0).category = SupportCategory.general ∧
    (fallbackResult "rate limited" 0).confidence = 0.3 ∧
    (fallbackResult "rate limited" 0).method = ClassificationMethod.llmFallback :=
  c7_retry_backoff_amended 3 "rate limited" 0 (by decide)

/-- C9: every classification path produces routing_priority critical, high
or normal; the declared value low is never produced: the rule engine only
emits those three strings, the LLM adapter always leaves the default
normal, and the hybrid orchestrator returns one of those two results. -/
theorem c9_priority_values (q : List Char) (ruleMs θ llmRt totalMs rt : ℚ)
    (outs : Nat → AttemptOutcome) (m : Nat) :
    (ruleClassify q ruleMs).routing_priority ∈ ["critical", "high", "normal"] ∧
    (ruleClassify q ruleMs).routing_priority ≠ "low" ∧
    ((llmClassify outs m rt).1).routing_priority = "normal" ∧
    ((hybridClassify θ q ruleMs outs llmRt totalMs).1).routing_priority ∈
      ["critical", "high", "normal"] ∧
    ((hybridClassify θ q ruleMs outs llmRt totalMs).1).routing_priority ≠ "low" := by
  have h3 := determineRouting_priority (ruleBest q).1 (ruleBest q).2
    (ruleAdditional q).2 q
  have hrule : (ruleClassify q ruleMs).routing_priority =
      (determineRouting (ruleBest q).1 (ruleBest q).2 (ruleAdditional q).2 q).1 := by
    rw [ruleClassify_priority, ruleRouting_eq]
  have hmem : (ruleClassify q ruleMs).routing_priority ∈
      (["critical", "high", "normal"] : List String) := by
    rw [hrule]; rcases h3 with h | h | h <;> simp [h]
  have hlow : (ruleClassify q ruleMs).routing_priority ≠ "low" := by
    rw [hrule]; rcases h3 with h | h | h <;> simp [h]
  have hllm : ((llmClassify outs m rt).1).routing_priority = "normal" :=
    llmLoop_priority outs rt m m
  have hhyb : (hybridClassify θ q ruleMs outs llmRt totalMs).1 = ruleClassify q ruleMs ∨
      ((hybridClassify θ q ruleMs outs llmRt totalMs).1).routing_priority =
        ((llmClassify outs 3 llmRt).1).routing_priority := by
    simp only [hybridClassify]
    split
    · left; rfl
    · split
      · right; rfl
      · left; rfl
  rcases hhyb with he | he
  · exact ⟨hmem, hlow, hllm, by rw [he]; exact hmem, by rw [he]; exact hlow⟩
  · have h4 : ((hybridClassify θ q ruleMs outs llmRt totalMs).1).routing_priority =
        "normal" := by rw [he]; exact llmLoop_priority outs llmRt 3 3
    exact ⟨hmem, hlow, hllm, by rw [h4]; simp, by rw [h4]; simp⟩

end QnA

namespace QnA

/-! ## Character-class lemmas -/

lemma char_ofNat_add32_toNat (n : Nat) (h1 : 65 ≤ n) (h2 : n ≤ 90) :
    (Char.ofNat (n + 32)).toNat = n + 32 := by
  have hv : (n + 32).isValidChar := Or.inl (by omega)
  rw [Char.ofNat, dif_pos hv]
  simp [Char.ofNatAux, Char.toNat, UInt32.toNat, BitVec.toNat_ofNatLt]

lemma pyLower_eq_self {c : Char}
    (h : ¬(65 ≤ c.toNat ∧ c.toNat ≤ 90)) : pyLower c = c := by
  unfold pyLower
  rw [if_neg]
  simp only [Bool.and_eq_true, decide_eq_true_eq]
  exact h

lemma pyLower_toNat_of_upper {c : Char}
    (h1 : 65 ≤ c.toNat) (h2 : c.toNat ≤ 90) :
    (pyLower c).toNat = c.toNat + 32 := by
  unfold pyLower
  rw [if_pos (by simp only [Bool.and_eq_true, decide_eq_true_eq]; omega)]
  exact char_ofNat_add32_toNat c.toNat h1 h2

lemma char_eq_iff (c d : Char) : c = d ↔ c.toNat = d.toNat :=
  ⟨fun h => h ▸ rfl,
   fun h => Char.ext (UInt32.ext (by simpa [Char.toNat, UInt32.toNat] using h))⟩

lemma toNat_space : (' ' : Char).toNat = 32 := rfl
lemma toNat_dot : ('.' : Char).toNat = 46 := rfl
lemma toNat_comma : (',' : Char).toNat = 44 := rfl
lemma toNat_bang : ('!' : Char).toNat = 33 := rfl
lemma toNat_quest : ('?' : Char).toNat = 63 := rfl
lemma toNat_semi : (';' : Char).toNat = 59 := rfl
lemma toNat_colon : (':' : Char).toNat = 58 := rfl
lemma toNat_dollar : ('$' : Char).toNat = 36 := rfl
lemma toNat_hyphen : ('-' : Char).toNat = 45 := rfl
lemma toNat_slash : ('/' : Char).toNat = 47 := rfl
lemma toNat_at : ('@' : Char).toNat = 64 := rfl

lemma keepChar_space : keepChar ' ' = true := by decide

lemma keepChar_pyLower {c : Char} (h : keepChar c = true) :
    keepChar (pyLower c) = true := by
  by_cases hu : 65 ≤ c.toNat ∧ c.toNat ≤ 90
  · have ht := pyLower_toNat_of_upper hu.1 hu.2
    simp only [keepChar, isAsciiLetterB, isAsciiDigitB, isPySpace,
      Bool.or_eq_true, Bool.and_eq_true, decide_eq_true_eq, char_eq_iff]
    omega
  · rw [pyLower_eq_self hu]
    exact h

lemma pyLower_not_upper (c : Char) :
    ¬(65 ≤ (pyLower c).toNat ∧ (pyLower c).toNat ≤ 90) := by
  by_cases hu : 65 ≤ c.toNat ∧ c.toNat ≤ 90
  · rw [pyLower_toNat_of_upper hu.1 hu.2]
    omega
  · rw [pyLower_eq_self hu]
    exact hu

lemma outChar_mk {c : Char} (hk : keepChar c = true)
    (hu : ¬(65 ≤ c.toNat ∧ c.toNat ≤ 90)) (hw : isPySpace c = false) :
    outChar c = true := by
  simp only [keepChar, isAsciiLetterB, isAsciiDigitB, isPySpace, outChar,
    Bool.or_eq_true, Bool.and_eq_true, decide_eq_true_eq, Bool.eq_false_iff,
    ne_eq, char_eq_iff, toNat_space, toNat_dot, toNat_comma, toNat_bang,
    toNat_quest, toNat_semi, toNat_colon, toNat_dollar, toNat_hyphen] at hk hw ⊢
  omega

lemma outChar_space : outChar ' ' = true := by decide

lemma outChar_ws_eq_space {c : Char} (ho : outChar c = true)
    (hw : isPySpace c = true) : c = ' ' := by
  simp only [outChar, isPySpace, Bool.or_eq_true, Bool.and_eq_true,
    decide_eq_true_eq, char_eq_iff, toNat_space, toNat_dot, toNat_comma,
    toNat_bang, toNat_quest, toNat_semi, toNat_colon, toNat_dollar,
    toNat_hyphen] at ho hw ⊢
  omega

lemma outChar_ascii {c : Char} (ho : outChar c = true) : c.toNat < 128 := by
  simp only [outChar, Bool.or_eq_true, Bool.and_eq_true, decide_eq_true_eq,
    char_eq_iff, toNat_space, toNat_dot, toNat_comma, toNat_bang, toNat_quest,
    toNat_semi, toNat_colon, toNat_dollar, toNat_hyphen] at ho
  omega

lemma outChar_keep {c : Char} (ho : outChar c = true) : keepChar c = true := by
  simp only [outChar, keepChar, isAsciiLetterB, isAsciiDigitB, isPySpace,
    Bool.or_eq_true, Bool.and_eq_true, decide_eq_true_eq, char_eq_iff,
    toNat_space, toNat_dot, toNat_comma, toNat_bang, toNat_quest, toNat_semi,
    toNat_colon, toNat_dollar, toNat_hyphen] at ho ⊢
  omega

lemma outChar_not_upper {c : Char} (ho : outChar c = true) :
    ¬(65 ≤ c.toNat ∧ c.toNat ≤ 90) := by
  simp only [outChar, Bool.or_eq_true, Bool.and_eq_true, decide_eq_true_eq,
    char_eq_iff, toNat_space, toNat_dot, toNat_comma, toNat_bang, toNat_quest,
    toNat_semi, toNat_colon, toNat_dollar, toNat_hyphen] at ho
  omega

lemma outChar_ne_slash {c : Char} (ho : outChar c = true) : c ≠ '/' := by
  simp only [outChar, Bool.or_eq_true, Bool.and_eq_true, decide_eq_true_eq,
    char_eq_iff, toNat_space, toNat_dot, toNat_comma, toNat_bang, toNat_quest,
    toNat_semi, toNat_colon, toNat_dollar, toNat_hyphen, toNat_slash,
    ne_eq] at ho ⊢
  omega

lemma outChar_ne_at {c : Char} (ho : outChar c = true) : c ≠ '@' := by
  simp only [outChar, Bool.or_eq_true, Bool.and_eq_true, decide_eq_true_eq,
    char_eq_iff, toNat_space, toNat_dot, toNat_comma, toNat_bang, toNat_quest,
    toNat_semi, toNat_colon, toNat_dollar, toNat_hyphen, toNat_at,
    ne_eq] at ho ⊢
  omega

end QnA

namespace QnA

/-! ## Substitution-scanner identity lemmas -/

lemma urlMatch_some_slash {s : List Char} {n : Nat}
    (h : urlMatch s = some n) : '/' ∈ s := by
  unfold urlMatch at h
  split at h
  · simp
  · simp
  · exact absurd h (by simp)

lemma ssGo_id (f : List Char → Option Nat) :
    ∀ (fuel : Nat) (l : List Char),
      (∀ k, f (l.drop k) = none) → ssGo f fuel l = l := by
  intro fuel
  induction fuel with
  | zero => intro l _; rfl
  | succ fuel ih =>
    intro l h
    match l with
    | [] => rfl
    | c :: cs =>
      have h0 := h 0
      simp only [List.drop_zero] at h0
      have hrec := ih cs fun k => by
        have := h (k + 1)
        simpa using this
      simp [ssGo, h0, hrec]

lemma removeUrls_id {l : List Char} (h : '/' ∉ l) : removeUrls l = l := by
  apply ssGo_id
  intro k
  cases hm : urlMatch (l.drop k) with
  | none => rfl
  | some n => exact absurd (List.drop_subset k l (urlMatch_some_slash hm)) h

lemma emailMatch_some_at {p : Option Char} {s : List Char} {n : Nat}
    (h : emailMatch p s = some n) : '@' ∈ s := by
  unfold emailMatch at h
  dsimp only [] at h
  split at h
  · exact absurd h (by simp)
  · split at h
    · exact absurd h (by simp)
    · split at h
      · rename_i rest2 heq
        exact List.drop_subset _ s (heq ▸ List.mem_cons_self '@' rest2)
      · exact absurd h (by simp)

lemma seGo_id :
    ∀ (fuel : Nat) (p : Option Char) (l : List Char),
      (∀ (p' : Option Char) (k : Nat), emailMatch p' (l.drop k) = none) →
      seGo fuel p l = l := by
  intro fuel
  induction fuel with
  | zero => intro p l _; rfl
  | succ fuel ih =>
    intro p l h
    match l with
    | [] => rfl
    | c :: cs =>
      have h0 := h p 0
      simp only [List.drop_zero] at h0
      have hrec := ih (some c) cs fun p' k => by
        have := h p' (k + 1)
        simpa using this
      simp [seGo, h0, hrec]

lemma removeEmails_id {l : List Char} (h : '@' ∉ l) : removeEmails l = l := by
  apply seGo_id
  intro p' k
  cases hm : emailMatch p' (l.drop k) with
  | none => rfl
  | some n => exact absurd (List.drop_subset k l (emailMatch_some_at hm)) h

/-! ## Count lemmas -/

lemma count_map_of_iff {f : Char → Char} {c : Char}
    (hf : ∀ x, f x = c ↔ x = c) (l : List Char) :
    (l.map f).count c = l.count c := by
  induction l with
  | nil => rfl
  | cons x xs ih =>
    simp only [List.map_cons, List.count_cons, ih]
    by_cases hx : x = c
    · subst hx
      have hfx : f x = x := (hf x).mpr rfl
      simp [hfx]
    · have hfx : ¬ f x = c := fun hc => hx ((hf x).mp hc)
      simp [hx, hfx]

lemma count_zero_of_all {p : Char → Bool} {c : Char} (hc : p c = false)
    {l : List Char} (hl : ∀ x ∈ l, p x = true) : l.count c = 0 := by
  rw [List.count_eq_zero]
  intro hmem
  rw [hl c hmem] at hc
  exact absurd hc (by simp)

lemma mem_getLastD (l : List Char) (d : Char) :
    l.getLastD d = d ∨ l.getLastD d ∈ l := by
  induction l generalizing d with
  | nil => left; rfl
  | cons a l ih =>
    rw [List.getLastD_cons]
    rcases ih a with h | h
    · right; rw [h]; exact List.mem_cons_self a l
    · right; exact List.mem_cons_of_mem a h

lemma termPunct_getLastD {d : Char} {ds : List Char}
    (hd : isTermPunct d = true) :
    isTermPunct ((ds.takeWhile isTermPunct).getLastD d) = true := by
  rcases mem_getLastD (ds.takeWhile isTermPunct) d with h | h
  · rw [h]; exact hd
  · exact List.mem_takeWhile_imp h

lemma count_npGo {c : Char} (hc : isTermPunct c = false) :
    ∀ (fuel : Nat) (l : List Char), (npGo fuel l).count c = l.count c := by
  intro fuel
  induction fuel with
  | zero => intro l; rfl
  | succ fuel ih =>
    intro l
    match l with
    | [] => rfl
    | d :: ds =>
      by_cases hcond : (isTermPunct d && ds.head?.any isTermPunct) = true
      · have hd : isTermPunct d = true := (Bool.and_eq_true .. ▸ hcond).1
        have hlast : (ds.takeWhile isTermPunct).getLastD d ≠ c := by
          intro he
          have hp := @termPunct_getLastD d ds hd
          rw [he, hc] at hp
          exact absurd hp (by simp)
        have hdc : d ≠ c := by
          intro he
          rw [he, hc] at hd
          exact absurd hd (by simp)
        have htk : (ds.takeWhile isTermPunct).count c = 0 :=
          count_zero_of_all hc fun x hx => List.mem_takeWhile_imp hx
        have hsplit : ds.count c = (ds.dropWhile isTermPunct).count c := by
          conv_lhs => rw [← List.takeWhile_append_dropWhile isTermPunct ds]
          rw [List.count_append, htk, Nat.zero_add]
        simp only [npGo, if_pos hcond, List.count_cons, ih, beq_iff_eq]
        rw [if_neg hlast, if_neg hdc, ← hsplit]
      · simp only [npGo, if_neg hcond, List.count_cons, ih]

lemma count_cwGo {c : Char} (hc : isPySpace c = false) :
    ∀ (fuel : Nat) (l : List Char), (cwGo fuel l).count c = l.count c := by
  intro fuel
  induction fuel with
  | zero => intro l; rfl
  | succ fuel ih =>
    intro l
    match l with
    | [] => rfl
    | d :: ds =>
      by_cases hcond : isPySpace d = true
      · have hdc : d ≠ c := by
          intro he
          rw [he, hc] at hcond
          exact absurd hcond (by simp)
        have hspc : ' ' ≠ c := by
          intro he
          rw [← he] at hc
          exact absurd hc (by decide)
        have htk : (ds.takeWhile isPySpace).count c = 0 :=
          count_zero_of_all hc fun x hx => List.mem_takeWhile_imp hx
        have hsplit : ds.count c = (ds.dropWhile isPySpace).count c := by
          conv_lhs => rw [← List.takeWhile_append_dropWhile isPySpace ds]
          rw [List.count_append, htk, Nat.zero_add]
        simp only [cwGo, if_pos hcond, List.count_cons, ih, beq_iff_eq]
        rw [if_neg hspc, if_neg hdc, ← hsplit]
      · simp only [cwGo, if_neg hcond, List.count_cons, ih]

lemma count_dropWhile_not {p : Char → Bool} {c : Char} (hc : p c = false) :
    ∀ l : List Char, (l.dropWhile p).count c = l.count c := by
  intro l
  induction l with
  | nil => rfl
  | cons d ds ih =>
    by_cases hd : p d = true
    · have hdc : d ≠ c := by
        intro he
        rw [he, hc] at hd
        exact absurd hd (by simp)
      rw [List.dropWhile_cons_of_pos hd, ih, List.count_cons,
        if_neg (by simpa using hdc), Nat.add_zero]
    · rw [List.dropWhile_cons_of_neg hd]

lemma count_pyStrip {c : Char} (hc : isPySpace c = false) (l : List Char) :
    (pyStrip l).count c = l.count c := by
  unfold pyStrip
  rw [List.count_reverse, count_dropWhile_not hc, List.count_reverse,
    count_dropWhile_not hc]

end QnA

namespace QnA

/-- C8 counterexample: the euro sign survives the emoji-removal step but is
deleted by the special-character step, so preprocessing does not preserve
it: it occurs in the input below but not in the preprocessed output. -/
theorem c8_counterexample :
    '€' ∈ ("refund €100".toList) ∧ '€' ∉ preprocessL ("refund €100".toList) := by
  constructor
  · decide
  · decide

/-- C8 (amended): with the default configuration, preprocessing preserves
the dollar sign and every numeric digit — with exact occurrence counts —
for any input in which no URL or email can be stripped (ensured here by
the absence of the characters '/' and '@', both of which every match of
the URL or email pattern contains).  Among the currency symbols listed by
the claim only '$' is preserved: €, £ and ¥ are kept by the emoji-removal
step but replaced by spaces in the special-character step. -/
theorem c8_preservation_amended (text : List Char) (c : Char)
    (h1 : '/' ∉ text) (h2 : '@' ∉ text)
    (hc : c = '$' ∨ (48 ≤ c.toNat ∧ c.toNat ≤ 57)) :
    (preprocessL text).count c = text.count c := by
  have hn : c.toNat = 36 ∨ (48 ≤ c.toNat ∧ c.toNat ≤ 57) := by
    rcases hc with h | h
    · left; rw [h]; rfl
    · right; exact h
  have hws : isPySpace c = false := by
    simp only [isPySpace, Bool.or_eq_true, Bool.and_eq_true, decide_eq_true_eq,
      Bool.eq_false_iff, ne_eq]
    omega
  have hpunct : isTermPunct c = false := by
    simp only [isTermPunct, Bool.or_eq_true, decide_eq_true_eq,
      Bool.eq_false_iff, ne_eq, char_eq_iff, toNat_bang, toNat_quest, toNat_dot]
    omega
  have hkeep : keepChar c = true := by
    simp only [keepChar, isAsciiLetterB, isAsciiDigitB, isPySpace,
      Bool.or_eq_true, Bool.and_eq_true, decide_eq_true_eq, char_eq_iff,
      toNat_space, toNat_dot, toNat_comma, toNat_bang, toNat_quest, toNat_semi,
      toNat_colon, toNat_dollar, toNat_hyphen]
    omega
  have hfEmoji : ∀ x : Char,
      (if x.toNat < 128 || isCurrency x then x else ' ') = c ↔ x = c := by
    intro x
    constructor
    · intro he
      by_cases hx : (x.toNat < 128 || isCurrency x) = true
      · rwa [if_pos hx] at he
      · rw [if_neg hx] at he
        have := congrArg Char.toNat he
        rw [toNat_space] at this
        omega
    · intro he
      subst he
      rw [if_pos]
      simp only [Bool.or_eq_true, decide_eq_true_eq]
      left
      omega
  have hfSpecial : ∀ x : Char, (if keepChar x then x else ' ') = c ↔ x = c := by
    intro x
    constructor
    · intro he
      by_cases hx : keepChar x = true
      · rwa [if_pos hx] at he
      · rw [if_neg hx] at he
        have := congrArg Char.toNat he
        rw [toNat_space] at this
        omega
    · intro he
      subst he
      rw [if_pos hkeep]
  have hfLower : ∀ x : Char, pyLower x = c ↔ x = c := by
    intro x
    constructor
    · intro he
      by_cases hu : 65 ≤ x.toNat ∧ x.toNat ≤ 90
      · exfalso
        have ht := pyLower_toNat_of_upper hu.1 hu.2
        rw [he] at ht
        omega
      · rwa [pyLower_eq_self hu] at he
    · intro he
      subst he
      exact pyLower_eq_self (by omega)
  unfold preprocessL
  by_cases hg : text.all isPySpace = true
  · rw [if_pos hg]
    rw [count_zero_of_all hws (List.all_eq_true.mp hg)]
    rfl
  · rw [if_neg hg]
    simp only [collapseWs, normalizePunct, removeSpecial, removeEmojis]
    rw [removeUrls_id h1, removeEmails_id h2, count_pyStrip hws,
      count_cwGo hws, count_map_of_iff hfLower, count_map_of_iff hfSpecial,
      count_npGo hpunct, count_map_of_iff hfEmoji]

/-- Witness for C8 (amended) at a concrete billing text and the dollar
sign. -/
theorem c8_witness :
    (preprocessL ("pay $42 fee".toList)).count '$' =
      ("pay $42 fee".toList).count '$' :=
  c8_preservation_amended "pay $42 fee".toList '$' (by decide) (by decide)
    (Or.inl rfl)

end QnA

namespace QnA

/-! ## Chain and head lemmas for the idempotence proof -/

lemma chain'_dropWhile {R : Char → Char → Prop} {p : Char → Bool}
    {l : List Char} (h : l.Chain' R) : (l.dropWhile p).Chain' R := by
  induction l with
  | nil => simp
  | cons c cs ih =>
    by_cases hc : p c = true
    · rw [List.dropWhile_cons_of_pos hc]
      exact ih h.tail
    · rwa [List.dropWhile_cons_of_neg hc]

lemma head?_dropWhile_not {p : Char → Bool} {l : List Char} {d : Char}
    (h : (l.dropWhile p).head? = some d) : p d = false := by
  induction l with
  | nil => simp at h
  | cons c cs ih =>
    by_cases hc : p c = true
    · rw [List.dropWhile_cons_of_pos hc] at h
      exact ih h
    · rw [List.dropWhile_cons_of_neg hc] at h
      simp only [List.head?_cons, Option.some.injEq] at h
      rw [← h]
      exact Bool.eq_false_iff.mpr hc

lemma prefix_head {l₁ l₂ : List Char} {d : Char} (hp : l₁ <+: l₂)
    (h : l₁.head? = some d) : l₂.head? = some d := by
  obtain ⟨t, rfl⟩ := hp
  match l₁, h with
  | c :: cs, h => simpa using h

lemma pyStrip_leading (l : List Char) :
    pyStrip l <+: l.dropWhile isPySpace := by
  unfold pyStrip
  conv_rhs => rw [← List.reverse_reverse (l.dropWhile isPySpace)]
  exact List.reverse_prefix.mpr (List.dropWhile_suffix isPySpace)

lemma pyStrip_head_not {l : List Char} {d : Char}
    (h : (pyStrip l).head? = some d) : isPySpace d = false :=
  head?_dropWhile_not (prefix_head (pyStrip_leading l) h)

lemma pyStrip_getLast_not {l : List Char} {d : Char}
    (h : (pyStrip l).getLast? = some d) : isPySpace d = false := by
  unfold pyStrip at h
  rw [List.getLast?_reverse] at h
  exact head?_dropWhile_not h

lemma pyStrip_subset {l : List Char} {x : Char} (h : x ∈ pyStrip l) :
    x ∈ l := by
  unfold pyStrip at h
  rw [List.mem_reverse] at h
  have h1 := (List.dropWhile_suffix isPySpace).subset h
  rw [List.mem_reverse] at h1
  exact (List.dropWhile_suffix isPySpace).subset h1

lemma pyStrip_id {l : List Char}
    (hh : ∀ d, l.head? = some d → isPySpace d = false)
    (hl : ∀ d, l.getLast? = some d → isPySpace d = false) :
    pyStrip l = l := by
  match l with
  | [] => rfl
  | c :: cs =>
    have hfront : (c :: cs).dropWhile isPySpace = c :: cs :=
      List.dropWhile_cons_of_neg (by simp [hh c rfl])
    unfold pyStrip
    rw [hfront]
    cases hr : (c :: cs).reverse with
    | nil => exact absurd hr (by simp)
    | cons r rs =>
      have hlast : (c :: cs).getLast? = some r := by
        rw [← List.head?_reverse, hr]
        rfl
      rw [List.dropWhile_cons_of_neg (by simp [hl r hlast])]
      rw [← hr, List.reverse_reverse]

lemma chain'_pyStrip {R : Char → Char → Prop}
    (hsymm : ∀ a b, R a b → R b a) {l : List Char} (h : l.Chain' R) :
    (pyStrip l).Chain' R := by
  unfold pyStrip
  have h1 : (l.dropWhile isPySpace).Chain' R := chain'_dropWhile h
  have h2 : ((l.dropWhile isPySpace).reverse).Chain' R :=
    List.chain'_reverse.mpr (h1.imp fun a b hab => hsymm a b hab)
  have h3 : (((l.dropWhile isPySpace).reverse).dropWhile isPySpace).Chain' R :=
    chain'_dropWhile h2
  exact List.chain'_reverse.mpr (h3.imp fun a b hab => hsymm a b hab)

lemma cwGo_head {d : Char} {ds : List Char} (fuel : Nat)
    (hd : isPySpace d = false) :
    (cwGo fuel (d :: ds)).head? = some d := by
  cases fuel with
  | zero => rfl
  | succ fuel => simp [cwGo, hd]

lemma npGo_head {d : Char} {ds : List Char} (fuel : Nat)
    (hd : isTermPunct d = false) :
    (npGo fuel (d :: ds)).head? = some d := by
  cases fuel with
  | zero => rfl
  | succ fuel => simp [npGo, hd]

end QnA

namespace QnA

lemma cwGo_nil (fuel : Nat) : cwGo fuel [] = [] := by
  cases fuel <;> rfl

lemma npGo_nil (fuel : Nat) : npGo fuel [] = [] := by
  cases fuel <;> rfl

lemma map_id_of {f : Char → Char} {l : List Char}
    (h : ∀ x ∈ l, f x = x) : l.map f = l := by
  induction l with
  | nil => rfl
  | cons c cs ih =>
    rw [List.map_cons, h c (List.mem_cons_self c cs),
      ih fun x hx => h x (List.mem_cons_of_mem c hx)]

lemma termPunct_toNat {c : Char} (h : isTermPunct c = true) :
    c.toNat = 33 ∨ c.toNat = 63 ∨ c.toNat = 46 := by
  simp only [isTermPunct, Bool.or_eq_true, decide_eq_true_eq, char_eq_iff,
    toNat_bang, toNat_quest, toNat_dot] at h
  omega

lemma chain'_cwGo :
    ∀ (fuel : Nat) (l : List Char), l.length ≤ fuel →
      (cwGo fuel l).Chain'
        (fun a b => ¬(isPySpace a = true ∧ isPySpace b = true)) := by
  intro fuel
  induction fuel with
  | zero =>
    intro l hl
    rw [List.length_eq_zero.mp (Nat.le_zero.mp hl)]
    exact List.chain'_nil
  | succ fuel ih =>
    intro l hl
    match l with
    | [] => exact List.chain'_nil
    | d :: ds =>
      have hds : ds.length ≤ fuel := by
        simpa using hl
      by_cases hd : isPySpace d = true
      · rw [cwGo, if_pos hd]
        apply List.chain'_cons'.mpr
        refine ⟨?_, ih _ (le_trans (List.dropWhile_suffix _).sublist.length_le hds)⟩
        intro y hy
        cases hrest : ds.dropWhile isPySpace with
        | nil => rw [hrest, cwGo_nil] at hy; simp at hy
        | cons e es =>
          have he : isPySpace e = false := head?_dropWhile_not (by rw [hrest]; rfl)
          rw [hrest, cwGo_head fuel he] at hy
          simp only [Option.mem_def, Option.some.injEq] at hy
          subst hy
          rintro ⟨-, hws⟩
          rw [he] at hws
          exact absurd hws (by simp)
      · rw [cwGo, if_neg hd]
        apply List.chain'_cons'.mpr
        refine ⟨?_, ih _ hds⟩
        intro y _
        rintro ⟨hws, -⟩
        exact hd hws

lemma mem_cwGo :
    ∀ (fuel : Nat) (l : List Char), l.length ≤ fuel →
      ∀ x ∈ cwGo fuel l, x = ' ' ∨ (x ∈ l ∧ isPySpace x = false) := by
  intro fuel
  induction fuel with
  | zero =>
    intro l hl
    rw [List.length_eq_zero.mp (Nat.le_zero.mp hl)]
    exact fun x hx => absurd hx (List.not_mem_nil x)
  | succ fuel ih =>
    intro l hl
    match l with
    | [] => exact fun x hx => absurd hx (List.not_mem_nil x)
    | d :: ds =>
      have hds : ds.length ≤ fuel := by simpa using hl
      intro x hx
      by_cases hd : isPySpace d = true
      · rw [cwGo, if_pos hd] at hx
        rcases List.mem_cons.mp hx with rfl | hx'
        · left; rfl
        · rcases ih _ (le_trans (List.dropWhile_suffix _).sublist.length_le hds)
            x hx' with h | ⟨hmem, hws⟩
          · left; exact h
          · right
            exact ⟨List.mem_cons_of_mem d ((List.dropWhile_suffix _).subset hmem), hws⟩
      · rw [cwGo, if_neg hd] at hx
        rcases List.mem_cons.mp hx with rfl | hx'
        · right; exact ⟨List.mem_cons_self _ _, Bool.eq_false_iff.mpr hd⟩
        · rcases ih _ hds x hx' with h | ⟨hmem, hws⟩
          · left; exact h
          · right; exact ⟨List.mem_cons_of_mem d hmem, hws⟩

lemma cwGo_id :
    ∀ (fuel : Nat) (l : List Char),
      (∀ x ∈ l, isPySpace x = true → x = ' ') →
      l.Chain' (fun a b => ¬(isPySpace a = true ∧ isPySpace b = true)) →
      cwGo fuel l = l := by
  intro fuel
  induction fuel with
  | zero => intro l _ _; rfl
  | succ fuel ih =>
    intro l hall hchain
    match l with
    | [] => rfl
    | d :: ds =>
      by_cases hd : isPySpace d = true
      · have hd' : d = ' ' := hall d (List.mem_cons_self _ _) hd
        have hds : ds.dropWhile isPySpace = ds := by
          cases ds with
          | nil => rfl
          | cons e es =>
            have hrel := (List.chain'_cons.mp hchain).1
            have he : isPySpace e = false := by
              cases he : isPySpace e
              · rfl
              · exact absurd ⟨hd, he⟩ hrel
            exact List.dropWhile_cons_of_neg (by simp [he])
        rw [cwGo, if_pos hd, hds,
          ih ds (fun x hx => hall x (List.mem_cons_of_mem d hx)) hchain.tail, hd']
      · rw [cwGo, if_neg hd,
          ih ds (fun x hx => hall x (List.mem_cons_of_mem d hx)) hchain.tail]

lemma chain'_npGo :
    ∀ (fuel : Nat) (l : List Char), l.length ≤ fuel →
      (npGo fuel l).Chain'
        (fun a b => ¬(isTermPunct a = true ∧ isTermPunct b = true)) := by
  intro fuel
  induction fuel with
  | zero =>
    intro l hl
    rw [List.length_eq_zero.mp (Nat.le_zero.mp hl)]
    exact List.chain'_nil
  | succ fuel ih =>
    intro l hl
    match l with
    | [] => exact List.chain'_nil
    | d :: ds =>
      have hds : ds.length ≤ fuel := by simpa using hl
      by_cases hcond : (isTermPunct d && ds.head?.any isTermPunct) = true
      · rw [npGo, if_pos hcond]
        apply List.chain'_cons'.mpr
        refine ⟨?_, ih _ (le_trans (List.dropWhile_suffix _).sublist.length_le hds)⟩
        intro y hy
        cases hrest : ds.dropWhile isTermPunct with
        | nil => rw [hrest, npGo_nil] at hy; simp at hy
        | cons e es =>
          have he : isTermPunct e = false := head?_dropWhile_not (by rw [hrest]; rfl)
          rw [hrest, npGo_head fuel he] at hy
          simp only [Option.mem_def, Option.some.injEq] at hy
          subst hy
          rintro ⟨-, hp⟩
          rw [he] at hp
          exact absurd hp (by simp)
      · rw [npGo, if_neg hcond]
        apply List.chain'_cons'.mpr
        refine ⟨?_, ih _ hds⟩
        intro y hy
        by_cases hd : isTermPunct d = true
        · have hhead : ds.head?.any isTermPunct = false := by
            cases hh : ds.head?.any isTermPunct
            · rfl
            · exact absurd (by rw [Bool.and_eq_true]; exact ⟨hd, hh⟩) hcond
          cases ds with
          | nil => rw [npGo_nil] at hy; simp at hy
          | cons e es =>
            have he : isTermPunct e = false := by simpa using hhead
            rw [npGo_head fuel he] at hy
            simp only [Option.mem_def, Option.some.injEq] at hy
            subst hy
            rintro ⟨-, hp⟩
            rw [he] at hp
            exact absurd hp (by simp)
        · rintro ⟨hp, -⟩
          exact hd hp
      
lemma npGo_id :
    ∀ (fuel : Nat) (l : List Char),
      l.Chain' (fun a b => ¬(isTermPunct a = true ∧ isTermPunct b = true)) →
      npGo fuel l = l := by
  intro fuel
  induction fuel with
  | zero => intro l _; rfl
  | succ fuel ih =>
    intro l hchain
    match l with
    | [] => rfl
    | d :: ds =>
      have hcond : (isTermPunct d && ds.head?.any isTermPunct) = false := by
        by_cases hd : isTermPunct d = true
        · cases ds with
          | nil => simp
          | cons e es =>
            have hrel := (List.chain'_cons.mp hchain).1
            have he : isTermPunct e = false := by
              cases he : isTermPunct e
              · rfl
              · exact absurd ⟨hd, he⟩ hrel
            simp [he]
        · simp [Bool.eq_false_iff.mpr hd]
      rw [npGo, if_neg (by simp [hcond]), ih ds hchain.tail]

lemma chain'_cwGo_preserve :
    ∀ (fuel : Nat) (l : List Char),
      l.Chain' (fun a b => ¬(isTermPunct a = true ∧ isTermPunct b = true)) →
      (cwGo fuel l).Chain'
        (fun a b => ¬(isTermPunct a = true ∧ isTermPunct b = true)) := by
  intro fuel
  induction fuel with
  | zero => intro l h; exact h
  | succ fuel ih =>
    intro l hchain
    match l with
    | [] => simp [cwGo]
    | d :: ds =>
      by_cases hd : isPySpace d = true
      · rw [cwGo, if_pos hd]
        apply List.chain'_cons'.mpr
        refine ⟨?_, ih _ (chain'_dropWhile hchain.tail)⟩
        intro y _
        rintro ⟨hp, -⟩
        exact absurd hp (by decide)
      · rw [cwGo, if_neg hd]
        apply List.chain'_cons'.mpr
        refine ⟨?_, ih _ hchain.tail⟩
        intro y hy
        cases ds with
        | nil => rw [cwGo_nil] at hy; simp at hy
        | cons e es =>
          cases fuel with
          | zero =>
            have hy' : y = e := by
              have := hy
              simp only [show cwGo 0 (e :: es) = e :: es from rfl,
                List.head?_cons, Option.mem_def, Option.some.injEq] at this
              exact this.symm
            subst hy'
            exact (List.chain'_cons.mp hchain).1
          | succ fuel =>
            by_cases he : isPySpace e = true
            · have hh : (cwGo (fuel + 1) (e :: es)).head? = some ' ' := by
                simp [cwGo, he]
              rw [hh] at hy
              simp only [Option.mem_def, Option.some.injEq] at hy
              subst hy
              rintro ⟨-, hp⟩
              exact absurd hp (by decide)
            · rw [cwGo_head (fuel + 1) (Bool.eq_false_iff.mpr he)] at hy
              simp only [Option.mem_def, Option.some.injEq] at hy
              subst hy
              exact (List.chain'_cons.mp hchain).1

lemma chain'_map_punct {f : Char → Char}
    (hf : ∀ x, isTermPunct (f x) = true → f x = x) {l : List Char}
    (h : l.Chain' (fun a b => ¬(isTermPunct a = true ∧ isTermPunct b = true))) :
    (l.map f).Chain'
      (fun a b => ¬(isTermPunct a = true ∧ isTermPunct b = true)) := by
  rw [List.chain'_map]
  refine h.imp ?_
  rintro a b hab ⟨hfa, hfb⟩
  have ha := hf a hfa
  have hb := hf b hfb
  rw [ha] at hfa
  rw [hb] at hfb
  exact hab ⟨hfa, hfb⟩

end QnA

namespace QnA

lemma specialFn_punct (x : Char) :
    isTermPunct (if keepChar x then x else ' ') = true →
    (if keepChar x then x else ' ') = x := by
  by_cases hk : keepChar x = true
  · rw [if_pos hk]
    intro _
    rfl
  · rw [if_neg hk]
    intro hp
    exact absurd hp (by decide)

lemma pyLower_punct (x : Char) :
    isTermPunct (pyLower x) = true → pyLower x = x := by
  intro hp
  by_cases hu : 65 ≤ x.toNat ∧ x.toNat ≤ 90
  · exfalso
    have ht := pyLower_toNat_of_upper hu.1 hu.2
    have := termPunct_toNat hp
    omega
  · exact pyLower_eq_self hu

/-- The output invariants of default-config preprocessing: every character
belongs to the output alphabet, there are no two adjacent [!?.]
characters, no two adjacent whitespace characters, and the ends are not
whitespace. -/
lemma preprocessL_invariants (text : List Char) :
    (∀ x ∈ preprocessL text, outChar x = true) ∧
    (preprocessL text).Chain'
      (fun a b => ¬(isTermPunct a = true ∧ isTermPunct b = true)) ∧
    (preprocessL text).Chain'
      (fun a b => ¬(isPySpace a = true ∧ isPySpace b = true)) ∧
    (∀ d, (preprocessL text).head? = some d → isPySpace d = false) ∧
    (∀ d, (preprocessL text).getLast? = some d → isPySpace d = false) := by
  by_cases hg : text.all isPySpace = true
  · simp only [preprocessL, if_pos hg]
    exact ⟨fun x hx => absurd hx (List.not_mem_nil x), List.chain'_nil,
      List.chain'_nil, fun d hd => by simp at hd, fun d hd => by simp at hd⟩
  · simp only [preprocessL, if_neg hg]
    refine ⟨?_, ?_, ?_, ?_, ?_⟩
    · intro x hx
      have h1 := pyStrip_subset hx
      simp only [collapseWs] at h1
      rcases mem_cwGo _ _ (le_refl _) x h1 with rfl | ⟨hmem, hws⟩
      · exact outChar_space
      · obtain ⟨y, hy, rfl⟩ := List.mem_map.mp hmem
        simp only [removeSpecial] at hy
        obtain ⟨z, _, rfl⟩ := List.mem_map.mp hy
        have hky : keepChar (if keepChar z then z else ' ') = true := by
          by_cases hkz : keepChar z = true
          · rwa [if_pos hkz]
          · rw [if_neg hkz]
            exact keepChar_space
        exact outChar_mk (keepChar_pyLower hky) (pyLower_not_upper _) hws
    · apply chain'_pyStrip fun a b hab => fun ⟨x1, x2⟩ => hab ⟨x2, x1⟩
      simp only [collapseWs]
      apply chain'_cwGo_preserve
      apply chain'_map_punct pyLower_punct
      simp only [removeSpecial]
      apply chain'_map_punct specialFn_punct
      simp only [normalizePunct]
      exact chain'_npGo _ _ (le_refl _)
    · apply chain'_pyStrip fun a b hab => fun ⟨x1, x2⟩ => hab ⟨x2, x1⟩
      simp only [collapseWs]
      exact chain'_cwGo _ _ (le_refl _)
    · exact fun d hd => pyStrip_head_not hd
    · exact fun d hd => pyStrip_getLast_not hd

/-- Any list satisfying the preprocessing output invariants is a fixed
point of default-config preprocessing. -/
lemma preprocessL_fixed {out : List Char}
    (hchars : ∀ x ∈ out, outChar x = true)
    (hcp : out.Chain'
      (fun a b => ¬(isTermPunct a = true ∧ isTermPunct b = true)))
    (hcw : out.Chain'
      (fun a b => ¬(isPySpace a = true ∧ isPySpace b = true)))
    (hh : ∀ d, out.head? = some d → isPySpace d = false)
    (hl : ∀ d, out.getLast? = some d → isPySpace d = false) :
    preprocessL out = out := by
  cases out with
  | nil => rfl
  | cons o os =>
    have ho : isPySpace o = false := hh o rfl
    have hguard : ((o :: os).all isPySpace) = false := by
      cases hall : (o :: os).all isPySpace
      · rfl
      · have := List.all_eq_true.mp hall o (List.mem_cons_self _ _)
        rw [this] at ho
        exact absurd ho (by simp)
    simp only [preprocessL]
    rw [if_neg (by simp [hguard])]
    have e1 : removeUrls (o :: os) = o :: os :=
      removeUrls_id fun hmem => (outChar_ne_slash (hchars _ hmem)) rfl
    have e2 : removeEmails (o :: os) = o :: os :=
      removeEmails_id fun hmem => (outChar_ne_at (hchars _ hmem)) rfl
    have e3 : removeEmojis (o :: os) = o :: os := by
      unfold removeEmojis
      apply map_id_of
      intro x hx
      rw [if_pos]
      simp only [Bool.or_eq_true, decide_eq_true_eq]
      left
      exact outChar_ascii (hchars x hx)
    have e4 : normalizePunct (o :: os) = o :: os := by
      simp only [normalizePunct]
      exact npGo_id _ _ hcp
    have e5 : removeSpecial (o :: os) = o :: os := by
      unfold removeSpecial
      exact map_id_of fun x hx => if_pos (outChar_keep (hchars x hx))
    have e6 : (o :: os).map pyLower = o :: os :=
      map_id_of fun x hx => pyLower_eq_self (outChar_not_upper (hchars x hx))
    have e7 : collapseWs (o :: os) = o :: os := by
      simp only [collapseWs]
      exact cwGo_id _ _ (fun x hx hws => outChar_ws_eq_space (hchars x hx) hws) hcw
    have e8 : pyStrip (o :: os) = o :: os := pyStrip_id hh hl
    rw [e1, e2, e3, e4, e5, e6, e7, e8]

/-- C10: default-config preprocessing is idempotent — preprocessing an
already-preprocessed text returns it unchanged. -/
theorem c10_preprocess_idempotent (text : List Char) :
    preprocessL (preprocessL text) = preprocessL text := by
  obtain ⟨h1, h2, h3, h4, h5⟩ := preprocessL_invariants text
  exact preprocessL_fixed h1 h2 h3 h4 h5

end QnA
